import Mathlib

/-!
Verification of the issue-make repository's issue file-state machine and
identifier-resolution engine against its specification.

The development shallowly embeds the TypeScript sources:
  - src/utils/path.ts        (sanitizeTitle, generateIssueFilename,
                              generateAchievedFilename, extractIssueNumber, isIssueFile)
  - src/utils/validation.ts  (validateIssueNumber)
  - src/core/file-manager.ts (FileManager: getNextId, createIssue, findIssue,
                              findIssueByNumber, findIssueByTitle, openIssue,
                              closeIssue, loadIssueFile, formatIssueFile,
                              parseIssueFile, normalizeTitleForSearch)
  - the open command's updateAgentsFile (collaborator-brief reconciler)

Strings are embedded as List Char.  JavaScript regular-expression operations
used by the source are embedded by their documented semantics on such lists
(each one is justified in a comment at its definition site).
-/

namespace IssueMake

/-- Character class of the JavaScript regex [<>:"/\\|?*] in sanitizeTitle
(src/utils/path.ts line 17). -/
def isInvalidChar (c : Char) : Bool :=
  c = '<' || c = '>' || c = ':' || c = '"' || c = '/' || c = '\\' || c = '|' || c = '?' || c = '*'

/-- Character class of the JavaScript regex \s (whitespace), as used in
sanitizeTitle (src/utils/path.ts line 18) and String.prototype.trim:
tab, LF, VT, FF, CR, space, NBSP, Ogham space mark, the U+2000..U+200A range,
LS, PS, NNBSP, MMSP, ideographic space, BOM. -/
def jsWhitespace (c : Char) : Bool :=
  c.toNat = 9 || c.toNat = 10 || c.toNat = 11 || c.toNat = 12 || c.toNat = 13 ||
  c.toNat = 32 || c.toNat = 160 || c.toNat = 5760 ||
  (8192 ≤ c.toNat && c.toNat ≤ 8202) ||
  c.toNat = 8232 || c.toNat = 8233 || c.toNat = 8239 || c.toNat = 8287 ||
  c.toNat = 12288 || c.toNat = 65279

/-- Character class of the JavaScript regex \d (ASCII decimal digit). -/
def isDigitChar (c : Char) : Bool :=
  48 ≤ c.toNat && c.toNat ≤ 57

/-- Replacement of every maximal run of characters satisfying p by the single
character rep, keeping all other characters: the semantics of
String.prototype.replace with a global regex of shape /X+/g and a
one-character replacement.  The boolean state records whether the previous
character belonged to a run. -/
def collapseGo (p : Char → Bool) (rep : Char) : Bool → List Char → List Char
  | _, [] => []
  | b, c :: cs =>
    if p c then
      if b then collapseGo p rep true cs
      else rep :: collapseGo p rep true cs
    else c :: collapseGo p rep false cs

/-- Collapse maximal p-runs to a single rep character (see collapseGo). -/
def collapseRuns (p : Char → Bool) (rep : Char) (l : List Char) : List Char :=
  collapseGo p rep false l

/-- Removal of a maximal trailing run of characters satisfying p. -/
def dropTrailing (p : Char → Bool) (l : List Char) : List Char :=
  (l.reverse.dropWhile p).reverse

/-- Semantics of s.replace(/^-+|-+$/g, '') (src/utils/path.ts line 21):
remove a leading and a trailing run of dashes. -/
def trimDashes (l : List Char) : List Char :=
  dropTrailing (fun c => c = '-') (l.dropWhile (fun c => c = '-'))

/-- Semantics of String.prototype.trim: remove leading and trailing JS
whitespace. -/
def jsTrim (l : List Char) : List Char :=
  dropTrailing jsWhitespace (l.dropWhile jsWhitespace)

/-- The replace/truncate pipeline of sanitizeTitle (src/utils/path.ts lines
16-26), before the untitled fallback: the chained replace calls in source
order (invalid filename characters to underscore, whitespace runs to a dash,
collapse underscore runs, collapse dash runs, trim leading/trailing dashes)
followed by truncation to 80 characters. -/
def slugCore (title : List Char) : List Char :=
  (trimDashes
    (collapseRuns (fun c => c = '-') '-'
      (collapseRuns (fun c => c = '_') '_'
        (collapseRuns jsWhitespace '-'
          (title.map (fun c => if isInvalidChar c then '_' else c)))))).take 80

/-- The literal string untitled as a character list. -/
def untitledChars : List Char :=
  'u' :: 'n' :: 't' :: 'i' :: 't' :: 'l' :: 'e' :: 'd' :: []

/-- Embedding of sanitizeTitle (src/utils/path.ts lines 14-33): the slugCore
pipeline, then the fallback to the literal "untitled" when the result is
empty, or becomes empty after deleting dashes/underscores
(replace(/[-_]+/g, '')) and trimming (lines 28-30). -/
def sanitizeTitle (title : List Char) : List Char :=
  let s6 := slugCore title
  if s6 = [] ∨ jsTrim (s6.filter (fun c => ¬ (c = '-' ∨ c = '_'))) = [] then
    untitledChars
  else s6

/-- Decimal digit character for a digit value (used to embed JavaScript
number-to-string conversion of a non-negative integer). -/
def digitChar (n : Nat) : Char :=
  match n with
  | 0 => '0' | 1 => '1' | 2 => '2' | 3 => '3' | 4 => '4'
  | 5 => '5' | 6 => '6' | 7 => '7' | 8 => '8' | _ => '9'

/-- Fuel-bounded helper for the decimal representation (structural recursion
so that concrete values reduce inside the kernel). -/
def natDigitsAux (fuel : Nat) (n : Nat) : List Char :=
  match fuel with
  | 0 => []
  | fuel + 1 =>
    if n < 10 then [digitChar n]
    else natDigitsAux fuel (n / 10) ++ [digitChar (n % 10)]

/-- Decimal representation of a natural number, most significant digit first:
the embedding of JavaScript template interpolation of a non-negative
integer. -/
def natDigits (n : Nat) : List Char := natDigitsAux (n + 1) n

/-- Numeric value of a digit character. -/
def digitVal (c : Char) : Nat := c.toNat - 48

/-- Value of a list of decimal digit characters, as computed by JavaScript
parseInt on a pure digit string. -/
def digitsToNat (l : List Char) : Nat :=
  l.foldl (fun a c => a * 10 + digitVal c) 0

/-- Embedding of generateIssueFilename (src/utils/path.ts lines 41-44):
sanitized title, a dot, the decimal id, and the .md suffix. -/
def generateIssueFilename (title : List Char) (number : Nat) : List Char :=
  sanitizeTitle title ++ '.' :: natDigits number ++ ('.' :: 'm' :: 'd' :: [])

/-- Embedding of generateAchievedFilename (src/utils/path.ts lines 51-54):
sanitized title and the .md suffix, no id. -/
def generateAchievedFilename (title : List Char) : List Char :=
  sanitizeTitle title ++ ('.' :: 'm' :: 'd' :: [])

/-- Embedding of extractIssueNumber (src/utils/path.ts lines 61-64), i.e. of
filename.match(/\.(\d+)\.md$/).  The $-anchored pattern matches exactly when
the filename ends in ".md" preceded by a non-empty digit run preceded by a
dot; the captured group is that maximal digit run (the regex engine takes the
leftmost possible start, which for this end-anchored pattern is the dot before
the maximal digit run ending at ".md").  parseInt of the captured digits is
digitsToNat. -/
def extractIssueNumber (filename : List Char) : Option Nat :=
  let rev := filename.reverse
  if rev.take 3 = ('d' :: 'm' :: '.' :: []) then
    let r := rev.drop 3
    let ds := r.takeWhile isDigitChar
    let rest := r.dropWhile isDigitChar
    if ds ≠ [] ∧ rest.head? = some '.' then some (digitsToNat ds.reverse)
    else none
  else none

/-- Embedding of isIssueFile (src/utils/path.ts lines 71-73): the same regex
used as a test. -/
def isIssueFile (filename : List Char) : Bool :=
  (extractIssueNumber filename).isSome

/-- Embedding of validateIssueNumber (src/utils/validation.ts lines 26-36):
the string must match /^\d+$/ and its parseInt value is returned (always
non-negative here). -/
def validateIssueNumber (s : List Char) : Option Nat :=
  if s ≠ [] ∧ s.all isDigitChar then some (digitsToNat s) else none

/-! General list helpers used throughout the development. -/

theorem takeWhile_append_all {p : Char → Bool} {l r : List Char}
    (h : ∀ a ∈ l, p a = true) : (l ++ r).takeWhile p = l ++ r.takeWhile p := by
  induction l with
  | nil => simp
  | cons c cs ih =>
    simp only [List.cons_append, List.takeWhile_cons, h c (by simp)]
    simp [ih (fun a ha => h a (by simp [ha]))]

theorem dropWhile_append_all {p : Char → Bool} {l r : List Char}
    (h : ∀ a ∈ l, p a = true) : (l ++ r).dropWhile p = r.dropWhile p := by
  induction l with
  | nil => simp
  | cons c cs ih =>
    simp only [List.cons_append, List.dropWhile_cons, h c (by simp)]
    simp [ih (fun a ha => h a (by simp [ha]))]

theorem dropWhile_eq_self_of_head {p : Char → Bool} {l : List Char}
    (h : ∀ c, l.head? = some c → p c = false) : l.dropWhile p = l := by
  cases l with
  | nil => rfl
  | cons c cs => simp [List.dropWhile_cons, h c rfl]

theorem head?_dropWhile_false {p : Char → Bool} {l : List Char} {c : Char}
    (h : (l.dropWhile p).head? = some c) : p c = false := by
  induction l with
  | nil => simp at h
  | cons d ds ih =>
    by_cases hd : p d = true
    · rw [List.dropWhile_cons, if_pos hd] at h
      exact ih h
    · rw [List.dropWhile_cons, if_neg hd] at h
      simp only [List.head?_cons, Option.some.injEq] at h
      simpa [← h] using hd

theorem head?_of_isPre {l₁ l₂ : List Char} {c : Char}
    (h : l₁ <+: l₂) (hc : l₁.head? = some c) : l₂.head? = some c := by
  obtain ⟨t, rfl⟩ := h
  cases l₁ with
  | nil => simp at hc
  | cons d ds => simpa using hc

theorem mem_dropTrailing {p : Char → Bool} {l : List Char} {c : Char}
    (h : c ∈ dropTrailing p l) : c ∈ l := by
  unfold dropTrailing at h
  rw [List.mem_reverse] at h
  have := (List.dropWhile_suffix p (l := l.reverse)).sublist.mem h
  simpa using this

theorem dropTrailing_isPre {p : Char → Bool} (l : List Char) :
    dropTrailing p l <+: l := by
  unfold dropTrailing
  have h := (List.dropWhile_suffix p (l := l.reverse))
  have h2 : (l.reverse.dropWhile p).reverse <+: l.reverse.reverse :=
    List.reverse_prefix.mpr h
  simpa using h2

theorem dropTrailing_eq_self {p : Char → Bool} {l : List Char}
    (h : ∀ c, l.getLast? = some c → p c = false) : dropTrailing p l = l := by
  unfold dropTrailing
  rw [dropWhile_eq_self_of_head, List.reverse_reverse]
  intro c hc
  exact h c (by rwa [List.head?_reverse] at hc)

theorem mem_of_getLast?_eq {l : List Char} {c : Char} (h : l.getLast? = some c) :
    c ∈ l := by
  rw [← List.head?_reverse] at h
  rw [← List.mem_reverse]
  cases hr : l.reverse with
  | nil => rw [hr] at h; simp at h
  | cons d ds =>
    rw [hr] at h
    simp only [List.head?_cons, Option.some.injEq] at h
    simp [← h]

theorem jsTrim_eq_self {l : List Char} (h : ∀ c ∈ l, jsWhitespace c = false) :
    jsTrim l = l := by
  unfold jsTrim
  rw [dropWhile_eq_self_of_head, dropTrailing_eq_self]
  · intro c hc
    exact h c (mem_of_getLast?_eq hc)
  · intro c hc
    exact h c (by cases l <;> simp_all)

/-! Lemmas about collapseGo / collapseRuns, the embedding of global
one-character run replacement. -/

theorem collapseGo_nil (p : Char → Bool) (rep : Char) (b : Bool) :
    collapseGo p rep b [] = [] := rfl

theorem collapseGo_cons (p : Char → Bool) (rep : Char) (b : Bool) (c : Char) (cs : List Char) :
    collapseGo p rep b (c :: cs) =
      if p c then
        if b then collapseGo p rep true cs else rep :: collapseGo p rep true cs
      else c :: collapseGo p rep false cs := by
  cases b <;> rfl

theorem mem_collapseGo {p : Char → Bool} {rep : Char} {l : List Char} {c : Char} :
    ∀ {b : Bool}, c ∈ collapseGo p rep b l → c = rep ∨ c ∈ l := by
  induction l with
  | nil => intro b h; simp [collapseGo_nil] at h
  | cons d ds ih =>
    intro b h
    rw [collapseGo_cons] at h
    split at h
    · split at h
      · rcases ih h with h1 | h1
        · exact Or.inl h1
        · exact Or.inr (by simp [h1])
      · rcases List.mem_cons.mp h with h1 | h1
        · exact Or.inl h1
        · rcases ih h1 with h2 | h2
          · exact Or.inl h2
          · exact Or.inr (by simp [h2])
    · rcases List.mem_cons.mp h with h1 | h1
      · exact Or.inr (by simp [h1])
      · rcases ih h1 with h2 | h2
        · exact Or.inl h2
        · exact Or.inr (by simp [h2])

theorem mem_collapseRuns {p : Char → Bool} {rep : Char} {l : List Char} {c : Char}
    (h : c ∈ collapseRuns p rep l) : c = rep ∨ c ∈ l :=
  mem_collapseGo h

theorem collapseGo_eq_self_of_none {p : Char → Bool} {rep : Char} {l : List Char}
    (h : ∀ c ∈ l, p c = false) : ∀ b, collapseGo p rep b l = l := by
  induction l with
  | nil => intro b; rfl
  | cons d ds ih =>
    intro b
    rw [collapseGo_cons, if_neg (by simp [h d (by simp)])]
    rw [ih (fun c hc => h c (by simp [hc]))]

theorem p_mem_collapseGo {p : Char → Bool} {rep : Char} {l : List Char} {c : Char} :
    ∀ {b : Bool}, c ∈ collapseGo p rep b l → p c = true → c = rep := by
  induction l with
  | nil => intro b h _; simp [collapseGo_nil] at h
  | cons d ds ih =>
    intro b h hc
    rw [collapseGo_cons] at h
    split at h
    · split at h
      · exact ih h hc
      · rcases List.mem_cons.mp h with h1 | h1
        · exact h1
        · exact ih h1 hc
    · rcases List.mem_cons.mp h with h1 | h1
      · subst h1; simp_all
      · exact ih h1 hc

/-- On a list in which every p-character equals rep and no two adjacent
characters both satisfy p, run collapsing is the identity (the pair lemma for
the stateful and stateless entry points, proved by simultaneous induction). -/
theorem collapseGo_eq_self_pair {p : Char → Bool} {rep : Char} :
    ∀ l : List Char, (∀ c ∈ l, p c = true → c = rep) →
    List.Chain' (fun a b => ¬ (p a = true ∧ p b = true)) l →
    collapseGo p rep false l = l ∧
      ((∀ c, l.head? = some c → p c = false) → collapseGo p rep true l = l) := by
  intro l
  induction l with
  | nil => intro _ _; exact ⟨rfl, fun _ => rfl⟩
  | cons d ds ih =>
    intro hall hch
    have hall' : ∀ c ∈ ds, p c = true → c = rep := fun c hc => hall c (by simp [hc])
    have hch' : List.Chain' (fun a b => ¬ (p a = true ∧ p b = true)) ds :=
      hch.tail
    have ihds := ih hall' hch'
    by_cases hd : p d = true
    · have hdrep : d = rep := hall d (by simp) hd
      have hds_head : ∀ c, ds.head? = some c → p c = false := by
        intro c hc
        have := (List.chain'_cons'.mp hch).1 c hc
        by_contra hcc
        exact this ⟨hd, by simpa using hcc⟩
      constructor
      · rw [collapseGo_cons, if_pos hd, if_neg (by simp)]
        rw [ihds.2 hds_head, hdrep]
      · intro hhead
        have := hhead d rfl
        simp [hd] at this
    · constructor
      · rw [collapseGo_cons, if_neg hd, ihds.1]
      · intro _
        rw [collapseGo_cons, if_neg hd, ihds.1]

theorem collapseRuns_eq_self {p : Char → Bool} {rep : Char} {l : List Char}
    (hall : ∀ c ∈ l, p c = true → c = rep)
    (hch : List.Chain' (fun a b => ¬ (p a = true ∧ p b = true)) l) :
    collapseRuns p rep l = l :=
  (collapseGo_eq_self_pair l hall hch).1

/-- The output of run collapsing never contains two adjacent characters that
both satisfy p (together with: in state true the head of the output does not
satisfy p). -/
theorem chain'_collapseGo {p : Char → Bool} {rep : Char} :
    ∀ l : List Char,
      (∀ b, List.Chain' (fun a c => ¬ (p a = true ∧ p c = true)) (collapseGo p rep b l)) ∧
      (∀ c, (collapseGo p rep true l).head? = some c → p c = false) := by
  intro l
  induction l with
  | nil => exact ⟨fun b => by simp [collapseGo_nil], fun c h => by simp [collapseGo_nil] at h⟩
  | cons d ds ih =>
    by_cases hd : p d = true
    · constructor
      · intro b
        cases b with
        | true =>
          rw [collapseGo_cons, if_pos hd, if_pos rfl]
          exact ih.1 true
        | false =>
          rw [collapseGo_cons, if_pos hd, if_neg (by simp)]
          refine List.chain'_cons'.mpr ⟨?_, ih.1 true⟩
          intro c hc
          intro hcontra
          rw [ih.2 c hc] at hcontra
          simp at hcontra
      · intro c hc
        rw [collapseGo_cons, if_pos hd, if_pos rfl] at hc
        exact ih.2 c hc
    · constructor
      · intro b
        have : collapseGo p rep b (d :: ds) = d :: collapseGo p rep false ds := by
          rw [collapseGo_cons, if_neg hd]
        rw [this]
        refine List.chain'_cons'.mpr ⟨?_, ih.1 false⟩
        intro c _
        intro hcontra
        exact absurd hcontra.1 (by simp [hd])
      · intro c hc
        rw [collapseGo_cons, if_neg hd] at hc
        simp only [List.head?_cons, Option.some.injEq] at hc
        subst hc
        simpa using hd

/-- Run collapsing preserves any chain relation that is universally satisfied
on the replacement character (on either side). -/
theorem chain'_collapseGo_pres {p : Char → Bool} {rep : Char}
    {R : Char → Char → Prop}
    (hrepL : ∀ x, R rep x) (hrepR : ∀ x, R x rep) :
    ∀ l : List Char, List.Chain' R l →
      (List.Chain' R (collapseGo p rep true l)) ∧
      (List.Chain' R (collapseGo p rep false l) ∧
        ∀ c, (collapseGo p rep false l).head? = some c → c = rep ∨ l.head? = some c) := by
  intro l
  induction l with
  | nil => intro _; exact ⟨by simp [collapseGo_nil], by simp [collapseGo_nil], by simp [collapseGo_nil]⟩
  | cons d ds ih =>
    intro hch
    have ihds := ih hch.tail
    by_cases hd : p d = true
    · constructor
      · rw [collapseGo_cons, if_pos hd, if_pos rfl]
        exact ihds.1
      · constructor
        · rw [collapseGo_cons, if_pos hd, if_neg (by simp)]
          exact List.chain'_cons'.mpr ⟨fun c _ => hrepL c, ihds.1⟩
        · intro c hc
          rw [collapseGo_cons, if_pos hd, if_neg (by simp)] at hc
          simp only [List.head?_cons, Option.some.injEq] at hc
          exact Or.inl hc.symm
    · have hout : ∀ b, collapseGo p rep b (d :: ds) = d :: collapseGo p rep false ds := by
        intro b; rw [collapseGo_cons, if_neg hd]
      have hchain : List.Chain' R (d :: collapseGo p rep false ds) := by
        refine List.chain'_cons'.mpr ⟨?_, ihds.2.1⟩
        intro c hc
        rcases ihds.2.2 c hc with h1 | h1
        · rw [h1]; exact hrepR d
        · exact (List.chain'_cons'.mp hch).1 c h1
      exact ⟨by rw [hout]; exact hchain,
             by rw [hout]; exact hchain,
             by intro c hc; rw [hout] at hc; simp only [List.head?_cons, Option.some.injEq] at hc
                exact Or.inr (by simp [hc])⟩

/-! Lemmas about decimal digit strings. -/

theorem digitVal_digitChar : ∀ d : Nat, d < 10 → digitVal (digitChar d) = d := by decide

theorem isDigitChar_digitChar : ∀ d : Nat, d < 10 → isDigitChar (digitChar d) = true := by decide

theorem natDigitsAux_eq_of_lt :
    ∀ {f₁ : Nat} {f₂ n : Nat}, n < f₁ → n < f₂ → natDigitsAux f₁ n = natDigitsAux f₂ n := by
  intro f₁
  induction f₁ with
  | zero => intro f₂ n h1 _; omega
  | succ f ih =>
    intro f₂ n h1 h2
    cases f₂ with
    | zero => omega
    | succ g =>
      show (if n < 10 then [digitChar n] else natDigitsAux f (n / 10) ++ [digitChar (n % 10)]) =
        (if n < 10 then [digitChar n] else natDigitsAux g (n / 10) ++ [digitChar (n % 10)])
      split
      · rfl
      · next h =>
        have hdiv : n / 10 < n := Nat.div_lt_self (by omega) (by omega)
        rw [@ih g (n / 10) (by omega) (by omega)]

theorem natDigits_eq (n : Nat) :
    natDigits n = if n < 10 then [digitChar n]
      else natDigits (n / 10) ++ [digitChar (n % 10)] := by
  unfold natDigits
  show (if n < 10 then [digitChar n] else natDigitsAux n (n / 10) ++ [digitChar (n % 10)]) = _
  split
  · rfl
  · next h =>
    have hdiv : n / 10 < n := Nat.div_lt_self (by omega) (by omega)
    rw [@natDigitsAux_eq_of_lt n (n / 10 + 1) (n / 10) (by omega) (by omega)]

theorem natDigits_ne_nil (n : Nat) : natDigits n ≠ [] := by
  rw [natDigits_eq]
  split <;> simp

theorem natDigits_all_digits (n : Nat) : ∀ c ∈ natDigits n, isDigitChar c = true := by
  induction n using Nat.strong_induction_on with
  | _ n ih =>
    rw [natDigits_eq]
    split
    · intro c hc
      simp only [List.mem_singleton] at hc
      subst hc
      exact isDigitChar_digitChar n (by omega)
    · intro c hc
      rcases List.mem_append.mp hc with h1 | h1
      · exact ih (n / 10) (Nat.div_lt_self (by omega) (by omega)) c h1
      · simp only [List.mem_singleton] at h1
        subst h1
        exact isDigitChar_digitChar (n % 10) (Nat.mod_lt _ (by omega))

theorem foldl_natDigits (n : Nat) :
    ∀ a : Nat, (natDigits n).foldl (fun a c => a * 10 + digitVal c) a =
      a * 10 ^ (natDigits n).length + n := by
  induction n using Nat.strong_induction_on with
  | _ n ih =>
    intro a
    rw [natDigits_eq]
    split
    · next h =>
      simp [List.foldl, digitVal_digitChar n h]
    · next h =>
      rw [List.foldl_append, ih (n / 10) (Nat.div_lt_self (by omega) (by omega)) a]
      simp only [List.foldl, List.length_append, List.length_singleton]
      rw [digitVal_digitChar (n % 10) (Nat.mod_lt _ (by omega))]
      rw [pow_succ]
      have h2 := Nat.div_add_mod n 10
      ring_nf
      omega

theorem digitsToNat_natDigits (n : Nat) : digitsToNat (natDigits n) = n := by
  unfold digitsToNat
  rw [foldl_natDigits n 0]
  simp

/-- C8 ingredient: in the filename built by generateIssueFilename, the
end-anchored pattern of extractIssueNumber recovers exactly the encoded
number, because the decimal digits of the id form the maximal digit run
before the final ".md" and are preceded by a literal dot. -/
theorem extractIssueNumber_generateIssueFilename (title : List Char) (n : Nat) :
    extractIssueNumber (generateIssueFilename title n) = some n := by
  unfold generateIssueFilename extractIssueNumber
  have hrev : (sanitizeTitle title ++ '.' :: natDigits n ++ ('.' :: 'm' :: 'd' :: [])).reverse =
      'd' :: 'm' :: '.' :: ((natDigits n).reverse ++ '.' :: (sanitizeTitle title).reverse) := by
    simp [List.reverse_append]
  rw [hrev]
  simp only [List.take, List.drop, if_pos rfl]
  have hdig : ∀ c ∈ (natDigits n).reverse, isDigitChar c = true := by
    intro c hc
    exact natDigits_all_digits n c (List.mem_reverse.mp hc)
  rw [takeWhile_append_all hdig, dropWhile_append_all hdig]
  have htw : List.takeWhile isDigitChar ('.' :: (sanitizeTitle title).reverse) = [] := by
    rw [List.takeWhile_cons]
    simp [isDigitChar]
  have hdw : List.dropWhile isDigitChar ('.' :: (sanitizeTitle title).reverse) =
      '.' :: (sanitizeTitle title).reverse := by
    rw [List.dropWhile_cons]
    simp [isDigitChar]
  rw [htw, hdw]
  simp only [List.append_nil]
  have hcond : (natDigits n).reverse ≠ [] ∧
      (('.' :: (sanitizeTitle title).reverse).head? = some '.') :=
    ⟨by simp [natDigits_ne_nil n], rfl⟩
  rw [if_pos hcond, List.reverse_reverse, digitsToNat_natDigits]
  simp

/-! Structural facts about the slugCore pipeline output. -/

theorem slugCore_facts (t : List Char) :
    (∀ c ∈ slugCore t, isInvalidChar c = false) ∧
    (∀ c ∈ slugCore t, jsWhitespace c = false) ∧
    List.Chain' (fun a b => ¬ (a = '_' ∧ b = '_')) (slugCore t) ∧
    List.Chain' (fun a b => ¬ (a = '-' ∧ b = '-')) (slugCore t) ∧
    (∀ c, (slugCore t).head? = some c → c ≠ '-') ∧
    (slugCore t).length ≤ 80 := by
  unfold slugCore
  set u1 := t.map (fun c => if isInvalidChar c then '_' else c) with hu1
  set u2 := collapseRuns jsWhitespace '-' u1 with hu2
  set u3 := collapseRuns (fun c => c = '_') '_' u2 with hu3
  set u4 := collapseRuns (fun c => c = '-') '-' u3 with hu4
  set u5 := trimDashes u4 with hu5
  have hinv1 : ∀ c ∈ u1, isInvalidChar c = false := by
    intro c hc
    rw [hu1, List.mem_map] at hc
    obtain ⟨d, _, rfl⟩ := hc
    by_cases hd : isInvalidChar d = true
    · rw [if_pos hd]; decide
    · rw [if_neg hd]
      simpa using hd
  have hinv2 : ∀ c ∈ u2, isInvalidChar c = false := by
    intro c hc
    rcases mem_collapseRuns hc with h | h
    · subst h; decide
    · exact hinv1 c h
  have hinv3 : ∀ c ∈ u3, isInvalidChar c = false := by
    intro c hc
    rcases mem_collapseRuns hc with h | h
    · subst h; decide
    · exact hinv2 c h
  have hinv4 : ∀ c ∈ u4, isInvalidChar c = false := by
    intro c hc
    rcases mem_collapseRuns hc with h | h
    · subst h; decide
    · exact hinv3 c h
  have hws2 : ∀ c ∈ u2, jsWhitespace c = false := by
    intro c hc
    by_contra hcc
    simp only [Bool.not_eq_false] at hcc
    have := p_mem_collapseGo hc hcc
    subst this
    simp [jsWhitespace] at hcc
  have hws3 : ∀ c ∈ u3, jsWhitespace c = false := by
    intro c hc
    rcases mem_collapseRuns hc with h | h
    · subst h; decide
    · exact hws2 c h
  have hws4 : ∀ c ∈ u4, jsWhitespace c = false := by
    intro c hc
    rcases mem_collapseRuns hc with h | h
    · subst h; decide
    · exact hws3 c h
  have hchU3 : List.Chain' (fun a b => ¬ (a = '_' ∧ b = '_')) u3 := by
    have := (@chain'_collapseGo (fun c => (c = '_' : Bool)) '_' u2).1 false
    refine List.Chain'.imp ?_ this
    intro a b hab ⟨ha, hb⟩
    exact hab ⟨by simp [ha], by simp [hb]⟩
  have hchU4 : List.Chain' (fun a b => ¬ (a = '_' ∧ b = '_')) u4 := by
    have := @chain'_collapseGo_pres (fun c => (c = '-' : Bool)) '-'
      (fun a b => ¬ (a = '_' ∧ b = '_'))
      (fun x ⟨h1, _⟩ => by simp at h1) (fun x ⟨_, h2⟩ => by simp at h2) u3 hchU3
    exact this.2.1
  have hchD4 : List.Chain' (fun a b => ¬ (a = '-' ∧ b = '-')) u4 := by
    have := (@chain'_collapseGo (fun c => (c = '-' : Bool)) '-' u3).1 false
    refine List.Chain'.imp ?_ this
    intro a b hab ⟨ha, hb⟩
    exact hab ⟨by simp [ha], by simp [hb]⟩
  have hu5pre : u5 <+: u4.dropWhile (fun c => (c = '-' : Bool)) := by
    rw [hu5]
    exact dropTrailing_isPre _
  have hmem5 : ∀ c ∈ u5, c ∈ u4 := by
    intro c hc
    have h1 := hu5pre.sublist.mem hc
    exact (List.dropWhile_suffix _).sublist.mem h1
  have htake_pre : u5.take 80 <+: u5 := List.take_prefix 80 u5
  have hmem6 : ∀ c ∈ u5.take 80, c ∈ u4 := fun c hc => hmem5 c (htake_pre.sublist.mem hc)
  refine ⟨fun c hc => hinv4 c (hmem6 c hc), fun c hc => hws4 c (hmem6 c hc), ?_, ?_, ?_, ?_⟩
  · exact List.Chain'.prefix
      ( List.Chain'.prefix (hchU4.suffix (List.dropWhile_suffix _)) hu5pre) htake_pre
  · exact List.Chain'.prefix
      ( List.Chain'.prefix (hchD4.suffix (List.dropWhile_suffix _)) hu5pre) htake_pre
  · intro c hc
    have h1 := head?_of_isPre htake_pre hc
    have h2 := head?_of_isPre hu5pre h1
    have h3 := head?_dropWhile_false h2
    simpa using h3
  · rw [List.length_take]
    exact Nat.min_le_left _ _

/-- A list already in slug normal form (no invalid characters, no whitespace,
no doubled underscores or dashes, no leading or trailing dash, length at most
80) is a fixed point of the slugCore pipeline. -/
theorem slugCore_eq_self {s : List Char}
    (hinv : ∀ c ∈ s, isInvalidChar c = false)
    (hws : ∀ c ∈ s, jsWhitespace c = false)
    (hchU : List.Chain' (fun a b => ¬ (a = '_' ∧ b = '_')) s)
    (hchD : List.Chain' (fun a b => ¬ (a = '-' ∧ b = '-')) s)
    (hhead : ∀ c, s.head? = some c → c ≠ '-')
    (hlast : s.getLast? ≠ some '-')
    (hlen : s.length ≤ 80) :
    slugCore s = s := by
  unfold slugCore
  have h1 : s.map (fun c => if isInvalidChar c then '_' else c) = s := by
    conv_rhs => rw [← List.map_id s]
    refine List.map_congr_left ?_
    intro c hc
    simp [hinv c hc]
  rw [h1]
  rw [show collapseRuns jsWhitespace '-' s = s from
    collapseGo_eq_self_of_none hws false]
  rw [@collapseRuns_eq_self (fun c => (c = '_' : Bool)) '_' _
    (fun c _ hc => by simpa using hc)
    (by refine List.Chain'.imp ?_ hchU
        intro a b hab ⟨ha, hb⟩
        exact hab ⟨by simpa using ha, by simpa using hb⟩)]
  rw [@collapseRuns_eq_self (fun c => (c = '-' : Bool)) '-' _
    (fun c _ hc => by simpa using hc)
    (by refine List.Chain'.imp ?_ hchD
        intro a b hab ⟨ha, hb⟩
        exact hab ⟨by simpa using ha, by simpa using hb⟩)]
  unfold trimDashes
  rw [dropWhile_eq_self_of_head (by
    intro c hc
    simpa using hhead c hc)]
  rw [dropTrailing_eq_self (by
    intro c hc
    by_contra hcc
    simp only [Bool.not_eq_false] at hcc
    have : c = '-' := by simpa using hcc
    subst this
    exact hlast hc)]
  exact List.take_of_length_le hlen

/-- Class of ASCII alphanumeric characters, used to read the specification
sentence about substituting untitled when the slug has no alphanumeric
content. -/
def isAlnumChar (c : Char) : Bool :=
  (65 ≤ c.toNat && c.toNat ≤ 90) || (97 ≤ c.toNat && c.toNat ≤ 122) || isDigitChar c

/-- Sanitization as worded by the specification: same pipeline, but the
fallback to untitled applies whenever the result is empty or contains no
alphanumeric content. -/
def specSanitizeTitle (title : List Char) : List Char :=
  let s6 := slugCore title
  if s6 = [] ∨ s6.all (fun c => !isAlnumChar c) then untitledChars
  else s6

/-- Sanitization as worded by the amended claim: the fallback applies
whenever the result is empty or consists solely of dashes and
underscores. -/
def amendedSanitizeTitle (title : List Char) : List Char :=
  let s6 := slugCore title
  if s6 = [] ∨ s6.all (fun c => c = '-' ∨ c = '_') then untitledChars
  else s6

/-- The untitled fallback condition of the source (delete dashes and
underscores, trim, test emptiness) agrees with consisting solely of dashes
and underscores, because the slug never contains whitespace at that point. -/
theorem untitled_cond_iff (l : List Char) (hws : ∀ c ∈ l, jsWhitespace c = false) :
    (l = [] ∨ jsTrim (l.filter (fun c => ¬ (c = '-' ∨ c = '_'))) = []) ↔
      (l = [] ∨ l.all (fun c => c = '-' ∨ c = '_') = true) := by
  have hfmem : ∀ c ∈ l.filter (fun c => ¬ (c = '-' ∨ c = '_')), jsWhitespace c = false :=
    fun c hc => hws c (List.mem_of_mem_filter hc)
  rw [jsTrim_eq_self hfmem]
  constructor
  · rintro (h | h)
    · exact Or.inl h
    · refine Or.inr ?_
      rw [List.all_eq_true]
      intro c hc
      have h2 := List.filter_eq_nil_iff.mp h c hc
      simp only [decide_eq_true_eq, not_not] at h2
      simpa using h2
  · rintro (h | h)
    · exact Or.inl h
    · refine Or.inr ?_
      rw [List.filter_eq_nil_iff]
      intro c hc
      have h2 := List.all_eq_true.mp h c hc
      simp only [decide_eq_true_eq] at h2
      simp only [decide_eq_true_eq, not_not]
      exact h2

/-- C7, counterexample.  The title consisting of a single exclamation mark
contains no alphanumeric content, so the specification's rule maps it to the
literal untitled, but sanitizeTitle keeps it unchanged: the fallback in the
code only fires when deleting dashes and underscores leaves nothing. -/
theorem claim_C7_counterexample :
    sanitizeTitle ('!' :: []) = ('!' :: []) ∧
    specSanitizeTitle ('!' :: []) = untitledChars ∧
    sanitizeTitle ('!' :: []) ≠ specSanitizeTitle ('!' :: []) := by decide

/-- C7, amended.  sanitizeTitle replaces each invalid filename character by
an underscore, collapses whitespace runs to one dash, collapses underscore
and dash runs, trims leading/trailing dashes, truncates to 80 characters, and
substitutes the literal untitled exactly when the result is empty or consists
solely of dashes and underscores (rather than: contains no alphanumeric
content); the identical rule is used for active and archived filenames, which
share the slug sanitizeTitle produces. -/
theorem claim_C7_amended :
    (∀ t, sanitizeTitle t = amendedSanitizeTitle t) ∧
    (∀ t n, generateIssueFilename t n =
      sanitizeTitle t ++ '.' :: natDigits n ++ ('.' :: 'm' :: 'd' :: [])) ∧
    (∀ t, generateAchievedFilename t = sanitizeTitle t ++ ('.' :: 'm' :: 'd' :: [])) := by
  refine ⟨?_, fun t n => rfl, fun t => rfl⟩
  intro t
  unfold sanitizeTitle amendedSanitizeTitle
  have hws := (slugCore_facts t).2.1
  rw [if_congr (untitled_cond_iff (slugCore t) hws) rfl rfl]

/-- C8.  Decoding the filename produced by encoding any title with any id
recovers exactly that id: the end-anchored pattern matches only the rightmost
dot-digits-dot-md suffix, never digit runs embedded in the sanitized
title. -/
theorem claim_C8 : ∀ (title : List Char) (n : Nat),
    extractIssueNumber (generateIssueFilename title n) = some n :=
  extractIssueNumber_generateIssueFilename

/-- C10, counterexample.  For the 81-character title of 79 letters a, a
space and a final letter, sanitization truncates to 80 characters exposing a
trailing dash, so a second application trims further: sanitizeTitle is not
idempotent. -/
theorem claim_C10_counterexample :
    sanitizeTitle (sanitizeTitle (List.replicate 79 'a' ++ (' ' :: 'a' :: []))) ≠
      sanitizeTitle (List.replicate 79 'a' ++ (' ' :: 'a' :: [])) := by decide

/-- C10, amended.  sanitizeTitle is idempotent on every title whose sanitized
form does not end in a dash (a trailing dash can only arise from the
80-character truncation, which cuts after the dash trimming step). -/
theorem claim_C10_amended (t : List Char)
    (h : (sanitizeTitle t).getLast? ≠ some '-') :
    sanitizeTitle (sanitizeTitle t) = sanitizeTitle t := by
  by_cases hcond : slugCore t = [] ∨
      jsTrim ((slugCore t).filter (fun c => ¬ (c = '-' ∨ c = '_'))) = []
  · have h1 : sanitizeTitle t = untitledChars := by
      unfold sanitizeTitle
      rw [if_pos hcond]
    rw [h1]
    decide
  · have h1 : sanitizeTitle t = slugCore t := by
      unfold sanitizeTitle
      rw [if_neg hcond]
    obtain ⟨hinv, hws, hchU, hchD, hhead, hlen⟩ := slugCore_facts t
    have hlast : (slugCore t).getLast? ≠ some '-' := by rwa [h1] at h
    have hs : slugCore (slugCore t) = slugCore t :=
      slugCore_eq_self hinv hws hchU hchD hhead hlast hlen
    rw [h1]
    unfold sanitizeTitle
    rw [hs]
    rw [if_neg hcond]

/-- C10, witness for the amended theorem at a concrete title. -/
theorem claim_C10_witness :
    sanitizeTitle (sanitizeTitle ('a' :: ' ' :: 'b' :: [])) =
      sanitizeTitle ('a' :: ' ' :: 'b' :: []) :=
  claim_C10_amended ('a' :: ' ' :: 'b' :: []) (by decide)

/-! The frontmatter codec (FileManager.formatIssueFile / parseIssueFile),
and the issue type enumeration. -/

/-- Embedding of the IssueType enumeration (src/core/types.ts). -/
inductive IssueType where
  | feat
  | todo
  | bug
  | refact
deriving DecidableEq, Repr

/-- The string value of an issue type, as stored in files. -/
def issueTypeChars : IssueType → List Char
  | .feat => 'f' :: 'e' :: 'a' :: 't' :: []
  | .todo => 't' :: 'o' :: 'd' :: 'o' :: []
  | .bug => 'b' :: 'u' :: 'g' :: []
  | .refact => 'r' :: 'e' :: 'f' :: 'a' :: 'c' :: 't' :: []

/-- Embedding of validateIssueType (src/utils/validation.ts lines 13-19):
membership test in the four enum values. -/
def validateIssueType (s : List Char) : Option IssueType :=
  if s = issueTypeChars .feat then some .feat
  else if s = issueTypeChars .todo then some .todo
  else if s = issueTypeChars .bug then some .bug
  else if s = issueTypeChars .refact then some .refact
  else none

/-- The metadata record written by createIssue (interface IssueMetadata in
src/core/types.ts): Create Date string, issue type, numeric index. -/
structure IssueMetadata where
  createDate : List Char
  type : IssueType
  index : Nat
deriving DecidableEq, Repr

/-- The metadata key "Create Date: " (key, colon, space). -/
def createDateKey : List Char :=
  'C' :: 'r' :: 'e' :: 'a' :: 't' :: 'e' :: ' ' :: 'D' :: 'a' :: 't' :: 'e' :: ':' :: ' ' :: []

/-- The metadata key "Type: ". -/
def typeKey : List Char := 'T' :: 'y' :: 'p' :: 'e' :: ':' :: ' ' :: []

/-- The metadata key "Index: ". -/
def indexKey : List Char := 'I' :: 'n' :: 'd' :: 'e' :: 'x' :: ':' :: ' ' :: []

/-- The frontmatter delimiter line "---" followed by a newline. -/
def fmDelim : List Char := '-' :: '-' :: '-' :: '\n' :: []

/-- The pattern a newline, "---", a newline: what the lazy group of
parseIssueFile's regex stops at. -/
def fmSplit : List Char := '\n' :: '-' :: '-' :: '-' :: '\n' :: []

/-- Embedding of yaml.stringify restricted to the IssueMetadata record that
createIssue passes to it: three key-value lines in insertion order, each
value a plain scalar, with a trailing newline.  (The yaml package emits
exactly this for a record of one plain string, one enum string and one
non-negative integer.) -/
def stringifyMetadata (m : IssueMetadata) : List Char :=
  createDateKey ++ m.createDate ++
  ('\n' :: typeKey) ++ issueTypeChars m.type ++
  ('\n' :: indexKey) ++ natDigits m.index ++ ('\n' :: [])

/-- Embedding of FileManager.formatIssueFile (src/core/file-manager.ts lines
438-441): three dashes and newline, the yaml metadata block, three dashes,
newline, blank line, then the body verbatim. -/
def formatIssueFile (m : IssueMetadata) (content : List Char) : List Char :=
  fmDelim ++ stringifyMetadata m ++ fmDelim ++ '\n' :: content

/-- Removal of a literal leading pattern: some remainder when pat is a
prefix, none otherwise. -/
def stripPre (pat l : List Char) : Option (List Char) :=
  if pat.isPrefixOf l then some (l.drop pat.length) else none

/-- Splitting a list at the first occurrence of a literal pattern: returns
the part before the occurrence and the part after it.  This is the semantics
of a lazy regex group followed by the literal pattern (leftmost match). -/
def splitFirst (pat : List Char) : List Char → Option (List Char × List Char)
  | [] => if pat.isPrefixOf ([] : List Char) then some ([], []) else none
  | c :: cs =>
    if pat.isPrefixOf (c :: cs) then some ([], (c :: cs).drop pat.length)
    else (splitFirst pat cs).map (fun pr => (c :: pr.1, pr.2))

/-- Embedding of yaml.parse restricted to the documents stringifyMetadata
emits: exactly three lines "Create Date: d", "Type: t", "Index: i" with a
recognized type and a decimal index.  Any other shape is mapped to none,
which the callers treat like a metadata object without a valid Type. -/
def parseMetadata (s : List Char) : Option IssueMetadata :=
  match splitFirst ('\n' :: []) s with
  | none => none
  | some (l1, rest) =>
    match splitFirst ('\n' :: []) rest with
    | none => none
    | some (l2, l3) =>
      if '\n' ∈ l3 then none
      else
        match stripPre createDateKey l1, stripPre typeKey l2,
            stripPre indexKey l3 with
        | some d, some ty, some idx =>
          match validateIssueType ty with
          | some t =>
            if idx ≠ [] ∧ idx.all isDigitChar then some ⟨d, t, digitsToNat idx⟩
            else none
          | none => none
        | _, _, _ => none

/-- Embedding of FileManager.parseIssueFile (src/core/file-manager.ts lines
448-458), i.e. of content.match(/^---\n([\s\S]*?)\n---\n([\s\S]*)$/).  The
anchored pattern requires the leading delimiter; the lazy first group ends at
the first later occurrence of newline dash dash dash newline; the second
group is the rest.  On no match the fallback returns empty metadata (here
none) and the whole content as body. -/
def parseIssueFile (content : List Char) : Option IssueMetadata × List Char :=
  match stripPre fmDelim content with
  | none => (none, content)
  | some rest =>
    match splitFirst fmSplit rest with
    | none => (none, content)
    | some (g1, g2) => (parseMetadata g1, g2)

/-! Lemmas about stripPre and splitFirst. -/

theorem stripPre_append (pat r : List Char) : stripPre pat (pat ++ r) = some r := by
  unfold stripPre
  rw [if_pos ( List.isPrefixOf_iff_prefix.mpr ⟨r, rfl⟩), List.drop_left]

theorem splitFirst_cons (pat : List Char) (c : Char) (cs : List Char) :
    splitFirst pat (c :: cs) =
      if pat.isPrefixOf (c :: cs) then some ([], (c :: cs).drop pat.length)
      else (splitFirst pat cs).map (fun pr => (c :: pr.1, pr.2)) := rfl

theorem splitFirst_at_pat {pat : List Char} (v : List Char) (hpat : pat ≠ []) :
    splitFirst pat (pat ++ v) = some ([], v) := by
  cases pat with
  | nil => exact absurd rfl hpat
  | cons p ps =>
    rw [List.cons_append, splitFirst_cons]
    rw [if_pos ( List.isPrefixOf_iff_prefix.mpr ⟨v, by simp⟩)]
    have hd : List.drop (p :: ps).length ((p :: ps) ++ v) = v := List.drop_left (p :: ps) v
    simp only [List.cons_append] at hd
    rw [hd]

theorem splitFirst_append_from {pat : List Char} (v : List Char) :
    ∀ u : List Char,
    (∀ a, a ≠ [] → a <:+ u → pat.isPrefixOf (a ++ v) = false) →
    splitFirst pat (u ++ v) = (splitFirst pat v).map (fun pr => (u ++ pr.1, pr.2)) := by
  intro u
  induction u with
  | nil =>
    intro _
    simp only [List.nil_append]
    cases h : splitFirst pat v with
    | none => rfl
    | some pr => rfl
  | cons c u' ih =>
    intro hno
    have hnotc : pat.isPrefixOf ((c :: u') ++ v) = false :=
      hno (c :: u') (by simp) (List.suffix_refl _)
    have hnotc2 : pat.isPrefixOf (c :: (u' ++ v)) = false := by
      simpa [List.cons_append] using hnotc
    rw [List.cons_append, splitFirst_cons, if_neg (by simp [hnotc2])]
    rw [ih (fun a ha hs => hno a ha (hs.trans (List.suffix_cons c u')))]
    cases h : splitFirst pat v with
    | none => rfl
    | some pr => rfl

theorem splitFirst_mid {pat : List Char} (u v : List Char) (hpat : pat ≠ [])
    (hno : ∀ a, a ≠ [] → a <:+ u → pat.isPrefixOf (a ++ (pat ++ v)) = false) :
    splitFirst pat (u ++ pat ++ v) = some (u, v) := by
  rw [List.append_assoc, splitFirst_append_from (pat ++ v) u hno,
    splitFirst_at_pat v hpat]
  simp

/-- Splitting an equality around a distinguished occurrence of a character
that does not occur earlier: the occurrence on the left side is either the
distinguished one or lies strictly inside the right part. -/
theorem eq_split_at_char {x : Char} {w : List Char} :
    ∀ {u a₁ a₂ : List Char}, x ∉ u → a₁ ++ x :: a₂ = u ++ x :: w →
    (a₁ = u ∧ a₂ = w) ∨ ∃ w₁ w₂, w = w₁ ++ x :: w₂ ∧ a₂ = w₂ := by
  intro u
  induction u with
  | nil =>
    intro a₁ a₂ _ h
    cases a₁ with
    | nil =>
      simp only [List.nil_append, List.cons.injEq] at h
      exact Or.inl ⟨rfl, h.2⟩
    | cons c cs =>
      simp only [List.cons_append, List.nil_append, List.cons.injEq] at h
      exact Or.inr ⟨cs, a₂, h.2.symm, rfl⟩
  | cons cu u' ih =>
    intro a₁ a₂ hu h
    cases a₁ with
    | nil =>
      simp only [List.nil_append, List.cons_append, List.cons.injEq] at h
      exact absurd (by simp [h.1]) hu
    | cons c cs =>
      simp only [List.cons_append, List.cons.injEq] at h
      rcases ih (by simp at hu; exact fun hx => hu.2 hx) h.2 with ⟨h1, h2⟩ | ⟨w₁, w₂, h1, h2⟩
      · exact Or.inl ⟨by simp [h.1, h1], h2⟩
      · exact Or.inr ⟨w₁, w₂, h1, h2⟩

/-- Validity of an issue metadata record: the Create Date value is a
non-empty date-like plain scalar (digits and dashes, as getCurrentDate
produces).  Such scalars round-trip verbatim through the yaml layer and
contain no newline. -/
def validMetadata (m : IssueMetadata) : Prop :=
  m.createDate ≠ [] ∧ ∀ c ∈ m.createDate, isDigitChar c = true ∨ c = '-'

theorem nl_not_mem_createDate {m : IssueMetadata} (hm : validMetadata m) :
    '\n' ∉ createDateKey ++ m.createDate := by
  intro hin
  rcases List.mem_append.mp hin with h | h
  · simp [createDateKey] at h
  · rcases hm.2 _ h with h1 | h1
    · simp [isDigitChar] at h1
    · simp at h1

theorem nl_not_mem_typeLine (t : IssueType) : '\n' ∉ typeKey ++ issueTypeChars t := by
  cases t <;> decide

theorem nl_not_mem_indexLine (n : Nat) : '\n' ∉ indexKey ++ natDigits n := by
  intro hin
  rcases List.mem_append.mp hin with h | h
  · simp [indexKey] at h
  · have := natDigits_all_digits n _ h
    simp [isDigitChar] at this

/-- No occurrence of the frontmatter split pattern starts inside the
metadata block stringifyMetadata emits (its lines begin with C, T, I and its
values contain no newline). -/
theorem no_fmSplit_in_meta {m : IssueMetadata} (hm : validMetadata m) (v : List Char) :
    ∀ a, a ≠ [] →
      a <:+ (createDateKey ++ m.createDate) ++
        '\n' :: ((typeKey ++ issueTypeChars m.type) ++ '\n' :: (indexKey ++ natDigits m.index)) →
      fmSplit.isPrefixOf (a ++ (fmSplit ++ v)) = false := by
  intro a ha hsuf
  by_contra hcc
  simp only [Bool.not_eq_false] at hcc
  cases a with
  | nil => exact ha rfl
  | cons c t =>
    rw [fmSplit, List.cons_append, List.isPrefixOf] at hcc
    rw [Bool.and_eq_true, beq_iff_eq] at hcc
    obtain ⟨hc, hrest⟩ := hcc
    subst hc
    obtain ⟨a₁, ha₁⟩ := hsuf
    rcases eq_split_at_char (nl_not_mem_createDate hm) ha₁ with ⟨_, ht⟩ | ⟨w₁, w₂, hw, ht⟩
    · subst ht
      simp [typeKey, List.isPrefixOf] at hrest
    · subst ht
      rcases eq_split_at_char (nl_not_mem_typeLine m.type) hw.symm with ⟨_, ht2⟩ | ⟨z₁, z₂, hz, ht2⟩
      · subst ht2
        simp [indexKey, List.isPrefixOf] at hrest
      · exact nl_not_mem_indexLine m.index (by simp [hz])

/-- No occurrence of a newline starts strictly inside a newline-free line. -/
theorem no_nl_in_line {line : List Char} (hline : '\n' ∉ line) (v : List Char) :
    ∀ a, a ≠ [] → a <:+ line →
      (('\n' :: []) : List Char).isPrefixOf (a ++ (('\n' :: []) ++ v)) = false := by
  intro a ha hsuf
  cases a with
  | nil => exact absurd rfl ha
  | cons c t =>
    have hc : c ∈ line := hsuf.sublist.mem (by simp)
    rw [List.cons_append, List.isPrefixOf, Bool.and_eq_false_iff]
    left
    rw [beq_eq_false_iff_ne]
    intro h
    subst h
    exact hline hc

theorem validateIssueType_issueTypeChars (t : IssueType) :
    validateIssueType (issueTypeChars t) = some t := by
  cases t <;> decide

/-- parseMetadata inverts stringifyMetadata (up to the trailing newline that
the frontmatter regex consumes) on valid metadata. -/
theorem parseMetadata_stringify (m : IssueMetadata) (hm : validMetadata m) :
    parseMetadata ((createDateKey ++ m.createDate) ++
      '\n' :: ((typeKey ++ issueTypeChars m.type) ++ '\n' :: (indexKey ++ natDigits m.index))) =
      some m := by
  unfold parseMetadata
  have h1 : splitFirst ('\n' :: []) ((createDateKey ++ m.createDate) ++
      '\n' :: ((typeKey ++ issueTypeChars m.type) ++ '\n' :: (indexKey ++ natDigits m.index))) =
      some (createDateKey ++ m.createDate,
        (typeKey ++ issueTypeChars m.type) ++ '\n' :: (indexKey ++ natDigits m.index)) := by
    have := @splitFirst_mid ('\n' :: [])
      (createDateKey ++ m.createDate)
      ((typeKey ++ issueTypeChars m.type) ++ '\n' :: (indexKey ++ natDigits m.index))
      (by simp)
      (no_nl_in_line (nl_not_mem_createDate hm) _)
    simpa using this
  have h2 : splitFirst ('\n' :: []) ((typeKey ++ issueTypeChars m.type) ++
      '\n' :: (indexKey ++ natDigits m.index)) =
      some (typeKey ++ issueTypeChars m.type, indexKey ++ natDigits m.index) := by
    have := @splitFirst_mid ('\n' :: [])
      (typeKey ++ issueTypeChars m.type)
      (indexKey ++ natDigits m.index)
      (by simp)
      (no_nl_in_line (nl_not_mem_typeLine m.type) _)
    simpa using this
  simp only [h1, h2]
  rw [if_neg (nl_not_mem_indexLine m.index)]
  rw [stripPre_append, stripPre_append, stripPre_append]
  simp only [validateIssueType_issueTypeChars]
  rw [if_pos ⟨natDigits_ne_nil _, by
    rw [List.all_eq_true]
    exact natDigits_all_digits _⟩]
  rw [digitsToNat_natDigits]

/-- C2, amended core: decoding an encoded issue file returns the original
metadata and the body with one extra leading newline (the blank separator
line is kept by the body group of the regex). -/
theorem parseIssueFile_formatIssueFile (m : IssueMetadata) (b : List Char)
    (hm : validMetadata m) :
    parseIssueFile (formatIssueFile m b) = (some m, '\n' :: b) := by
  have hfmt : formatIssueFile m b = fmDelim ++
      (((createDateKey ++ m.createDate) ++
        '\n' :: ((typeKey ++ issueTypeChars m.type) ++ '\n' :: (indexKey ++ natDigits m.index))) ++
       fmSplit ++ ('\n' :: b)) := by
    simp only [formatIssueFile, stringifyMetadata, fmDelim, fmSplit,
      List.append_assoc, List.cons_append, List.nil_append]
  have hsf : splitFirst fmSplit
      (((createDateKey ++ m.createDate) ++
        '\n' :: ((typeKey ++ issueTypeChars m.type) ++ '\n' :: (indexKey ++ natDigits m.index))) ++
       fmSplit ++ ('\n' :: b)) =
      some ((createDateKey ++ m.createDate) ++
        '\n' :: ((typeKey ++ issueTypeChars m.type) ++ '\n' :: (indexKey ++ natDigits m.index)),
        '\n' :: b) :=
    splitFirst_mid _ _ (by simp [fmSplit]) (no_fmSplit_in_meta hm ('\n' :: b))
  rw [hfmt]
  unfold parseIssueFile
  rw [stripPre_append]
  simp only [hsf]
  rw [parseMetadata_stringify m hm]

/-- C2, counterexample.  For the metadata (Create Date 2026-01-12, type feat,
index 0) and the body desc, decoding the encoded file yields the body with an
extra leading newline, not the original body: the frontmatter codec does not
round-trip exactly as the claim states. -/
theorem claim_C2_counterexample :
    parseIssueFile (formatIssueFile
        ⟨'2' :: '0' :: '2' :: '6' :: '-' :: '0' :: '1' :: '-' :: '1' :: '2' :: [],
          IssueType.feat, 0⟩
        ('d' :: 'e' :: 's' :: 'c' :: [])) ≠
      (some ⟨'2' :: '0' :: '2' :: '6' :: '-' :: '0' :: '1' :: '-' :: '1' :: '2' :: [],
          IssueType.feat, 0⟩,
        'd' :: 'e' :: 's' :: 'c' :: []) := by decide

/-- C2, amended.  For every valid metadata record and every body, decode of
encode returns exactly the original metadata, and the original body prefixed
with one newline: the blank line encode writes between the closing delimiter
and the body is not removed by decode. -/
theorem claim_C2_amended (m : IssueMetadata) (b : List Char) (hm : validMetadata m) :
    parseIssueFile (formatIssueFile m b) = (some m, '\n' :: b) :=
  parseIssueFile_formatIssueFile m b hm

/-- C2, witness for the amended theorem at concrete metadata and body. -/
theorem claim_C2_witness :
    parseIssueFile (formatIssueFile
        ⟨'2' :: '0' :: '2' :: '6' :: '-' :: '0' :: '1' :: '-' :: '1' :: '2' :: [],
          IssueType.feat, 0⟩
        ('d' :: 'e' :: 's' :: 'c' :: [])) =
      (some ⟨'2' :: '0' :: '2' :: '6' :: '-' :: '0' :: '1' :: '-' :: '1' :: '2' :: [],
          IssueType.feat, 0⟩,
        '\n' :: 'd' :: 'e' :: 's' :: 'c' :: []) :=
  claim_C2_amended _ _ (by constructor <;> decide)

/-! The collaborator brief reconciler: updateAgentsFile in the open command
(src/unnamed/part_005, lines 52-100). -/

/-- The start marker of the managed block in AGENTS.md. -/
def issueMakeStart : List Char := "<!-- ISSUE-MAKE:START -->".toList

/-- The end marker of the managed block in AGENTS.md. -/
def issueMakeEnd : List Char := "<!-- ISSUE-MAKE:END -->".toList

/-- The default document created when AGENTS.md does not exist (open
command, line 82). -/
def defaultAgentsContent : List Char :=
  "# AGENTS.md\n\nThis file contains tasks for AI agents.\n\n".toList

/-- The fields of the issue object that the open command interpolates into
the brief block; createDateShown is the JavaScript string rendering of the
issue's Date value. -/
structure BriefIssue where
  title : List Char
  number : Nat
  type : IssueType
  createDateShown : List Char
  content : List Char

/-- The part of the rendered task block strictly between the two markers
(the template literal of updateAgentsFile, lines 56-73). -/
def taskMid (i : BriefIssue) (solutionPath : List Char) : List Char :=
  "\n## Task: ".toList ++ i.title ++
  "\n\n**Issue ID:** ".toList ++ natDigits i.number ++
  "\n**Type:** ".toList ++ issueTypeChars i.type ++
  "\n**Created:** ".toList ++ i.createDateShown ++
  "\n\n### Description\n".toList ++ i.content ++
  "\n\n### Instructions\n- Work on this issue and implement the solution\n- Document your progress in ".toList ++
  solutionPath ++
  "\n- When complete, use `issue-make close ".toList ++ natDigits i.number ++
  "` to archive\n\n".toList

/-- The full taskContent template literal: a leading newline, the start
marker, the middle, the end marker, a trailing newline. -/
def taskContent (i : BriefIssue) (solutionPath : List Char) : List Char :=
  '\n' :: (issueMakeStart ++ (taskMid i solutionPath ++ (issueMakeEnd ++ ('\n' :: []))))

/-- Removal of one leading newline, the semantics of the regex suffix \n?
after the end marker. -/
def dropLeadNl : List Char → List Char
  | '\n' :: t => t
  | t => t

/-- Fuel-bounded global removal of marker blocks: the semantics of
content.replace(/START[\s\S]*?END\n?/g, '') (open command lines 86-89).
Each iteration finds the leftmost start marker, the first end marker after
it, removes through the end marker and one optional newline, and continues
scanning the remainder; if either marker is missing no further match
exists. -/
def stripIssueBlocksFuel : Nat → List Char → List Char
  | 0, s => s
  | fuel + 1, s =>
    match splitFirst issueMakeStart s with
    | none => s
    | some (pre, rest) =>
      match splitFirst issueMakeEnd rest with
      | none => s
      | some (_, post) => pre ++ stripIssueBlocksFuel fuel (dropLeadNl post)

/-- Global removal of marker blocks (each removal strictly shrinks the text,
so the length of the text bounds the number of iterations). -/
def stripIssueBlocks (s : List Char) : List Char :=
  stripIssueBlocksFuel s.length s

/-- Fuel-bounded count of marker blocks, by the same scan as
stripIssueBlocksFuel. -/
def countIssueBlocksFuel : Nat → List Char → Nat
  | 0, _ => 0
  | fuel + 1, s =>
    match splitFirst issueMakeStart s with
    | none => 0
    | some (_, rest) =>
      match splitFirst issueMakeEnd rest with
      | none => 0
      | some (_, post) => 1 + countIssueBlocksFuel fuel (dropLeadNl post)

/-- The number of marker blocks the reconciler's regex would match. -/
def countIssueBlocks (s : List Char) : Nat :=
  countIssueBlocksFuel s.length s

/-- Embedding of updateAgentsFile (open command lines 52-100) as a function
on the document content: read the prior document (or the default when the
file does not exist), strip all existing marker blocks, append the freshly
rendered task block. -/
def updateAgentsContent (prior : Option (List Char)) (i : BriefIssue)
    (solutionPath : List Char) : List Char :=
  let agentsContent := match prior with
    | some s => s
    | none => defaultAgentsContent
  stripIssueBlocks agentsContent ++ taskContent i solutionPath

/-! Lemmas about splitFirst occurrences, for the reconciler proofs. -/

theorem splitFirst_none_no_occur {pat : List Char} :
    ∀ {l : List Char}, splitFirst pat l = none → ∀ a b, l ≠ a ++ pat ++ b := by
  intro l
  induction l with
  | nil =>
    intro h a b hab
    have h1 : pat = [] := by
      rcases List.append_eq_nil.mp hab.symm with ⟨h1, _⟩
      rcases List.append_eq_nil.mp h1 with ⟨_, h2⟩
      exact h2
    unfold splitFirst at h
    rw [if_pos (by simp [h1, List.isPrefixOf])] at h
    exact Option.noConfusion h
  | cons c cs ih =>
    intro h a b hab
    rw [splitFirst_cons] at h
    by_cases hp : pat.isPrefixOf (c :: cs) = true
    · rw [if_pos hp] at h
      exact Option.noConfusion h
    · rw [if_neg (by simp [hp])] at h
      cases a with
      | nil =>
        apply hp
        rw [ List.isPrefixOf_iff_prefix]
        exact ⟨b, by simpa using hab.symm⟩
      | cons c₂ a' =>
        simp only [List.cons_append, List.cons.injEq] at hab
        have : splitFirst pat cs = none := by
          cases hsp : splitFirst pat cs with
          | none => rfl
          | some pr => rw [hsp] at h; exact Option.noConfusion h
        exact ih this a' b hab.2

theorem isPre_append_cases {x y z : List Char} (h : x <+: y ++ z) :
    x <+: y ∨ (y <+: x ∧ x.drop y.length <+: z) := by
  induction y generalizing x with
  | nil =>
    exact Or.inr ⟨ List.nil_prefix, by simpa using h⟩
  | cons c ys ih =>
    cases x with
    | nil => exact Or.inl ( List.nil_prefix)
    | cons d xs =>
      rw [List.cons_append, List.cons_prefix_cons] at h
      obtain ⟨rfl, h2⟩ := h
      rcases ih h2 with h3 | ⟨h3, h4⟩
      · exact Or.inl ( List.cons_prefix_cons.mpr ⟨rfl, h3⟩)
      · exact Or.inr ⟨ List.cons_prefix_cons.mpr ⟨rfl, h3⟩, by simpa using h4⟩

theorem suffix_snoc {a l : List Char} {x : Char} (ha : a ≠ [])
    (h : a <:+ l ++ (x :: [])) : ∃ a', a = a' ++ (x :: []) ∧ a' <:+ l := by
  obtain ⟨q, hq⟩ := h
  obtain ⟨a', y, rfl⟩ : ∃ a' y, a = a' ++ (y :: []) := by
    cases ha2 : a.reverse with
    | nil =>
      exact absurd (by simpa using congrArg List.reverse ha2) ha
    | cons y t =>
      exact ⟨t.reverse, y, by simpa using congrArg List.reverse ha2⟩
  rw [← List.append_assoc] at hq
  obtain ⟨h3, h4⟩ := List.append_inj' hq (by simp)
  obtain rfl : y = x := by simpa using h4
  exact ⟨a', rfl, ⟨q, h3⟩⟩

/-- No occurrence of a newline-free pattern starts inside a text-plus-final-
newline region when the text itself is free of the pattern: the candidate
start would either put a whole occurrence inside the text, or force the
newline into the pattern. -/
theorem no_pat_start_in_snoc_nl {pat d : List Char} (hne : pat ≠ [])
    (hnl : ('\n' : Char) ∉ pat) (hno : splitFirst pat d = none) (v : List Char) :
    ∀ a, a ≠ [] → a <:+ (d ++ ('\n' :: [])) → pat.isPrefixOf (a ++ v) = false := by
  intro a ha hsuf
  by_contra hcc
  simp only [Bool.not_eq_false] at hcc
  rw [ List.isPrefixOf_iff_prefix] at hcc
  obtain ⟨a', rfl, hsuf'⟩ := suffix_snoc ha hsuf
  rw [List.append_assoc] at hcc
  rcases isPre_append_cases hcc with h1 | ⟨h1, h2⟩
  · obtain ⟨q, hq⟩ := hsuf'
    obtain ⟨r, hr⟩ := h1
    exact splitFirst_none_no_occur hno q r (by rw [← hq, ← hr, List.append_assoc])
  · by_cases hlen : a'.length = pat.length
    · have : a' = pat := ( List.prefix_iff_eq_take.mp h1).trans (by rw [hlen, List.take_length])
      subst this
      obtain ⟨q, hq⟩ := hsuf'
      exact splitFirst_none_no_occur hno q [] (by rw [← hq]; simp)
    · have hlt : a'.length < pat.length := lt_of_le_of_ne h1.length_le hlen
      have hdrop_ne : pat.drop a'.length ≠ [] := by
        intro hd
        have hlen0 := congrArg List.length hd
        simp only [List.length_drop, List.length_nil] at hlen0
        omega
      cases hd : pat.drop a'.length with
      | nil => exact hdrop_ne hd
      | cons e es =>
        rw [hd] at h2
        simp only [List.cons_append, List.nil_append, List.cons_prefix_cons] at h2
        apply hnl
        have : e ∈ pat.drop a'.length := by rw [hd]; simp
        rw [h2.1] at this
        exact List.drop_subset _ _ this

/-- No occurrence of the pattern starts strictly inside text that is free of
it, even just before a designated occurrence, provided the pattern has no
non-trivial self-overlap (no proper non-empty suffix of it is a prefix of
pattern-plus-newline). -/
theorem no_pat_start_before_self {pat mid : List Char} (hne : pat ≠ [])
    (hno : splitFirst pat mid = none)
    (hoverlap : ∀ k, 1 ≤ k → k < pat.length → ¬ (pat.drop k <+: pat ++ ('\n' :: []))) :
    ∀ a, a ≠ [] → a <:+ mid → pat.isPrefixOf (a ++ (pat ++ ('\n' :: []))) = false := by
  intro a ha hsuf
  by_contra hcc
  simp only [Bool.not_eq_false] at hcc
  rw [ List.isPrefixOf_iff_prefix] at hcc
  rcases isPre_append_cases hcc with h1 | ⟨h1, h2⟩
  · obtain ⟨q, hq⟩ := hsuf
    obtain ⟨r, hr⟩ := h1
    exact splitFirst_none_no_occur hno q r (by rw [← hq, ← hr, List.append_assoc])
  · by_cases hlen : a.length = pat.length
    · have : a = pat := ( List.prefix_iff_eq_take.mp h1).trans (by rw [hlen, List.take_length])
      subst this
      obtain ⟨q, hq⟩ := hsuf
      exact splitFirst_none_no_occur hno q [] (by rw [← hq]; simp)
    · have hlt : a.length < pat.length := lt_of_le_of_ne h1.length_le hlen
      have h1le : 1 ≤ a.length := by
        cases a with
        | nil => exact absurd rfl ha
        | cons c cs => simp
      exact hoverlap a.length h1le hlt h2

/-- The end marker has no non-trivial self-overlap. -/
theorem issueMakeEnd_no_overlap :
    ∀ k, 1 ≤ k → k < issueMakeEnd.length →
      ¬ (issueMakeEnd.drop k <+: issueMakeEnd ++ ('\n' :: [])) := by decide

theorem splitFirst_eq_append {pat : List Char} :
    ∀ {l pre post : List Char}, splitFirst pat l = some (pre, post) →
      l = pre ++ pat ++ post := by
  intro l
  induction l with
  | nil =>
    intro pre post h
    unfold splitFirst at h
    split at h
    · next hp =>
      have hpat : pat = [] := by
        rw [ List.isPrefixOf_iff_prefix] at hp
        simpa using hp.length_le
      simp only [Option.some.injEq, Prod.mk.injEq] at h
      simp [← h.1, ← h.2, hpat]
    · exact Option.noConfusion h
  | cons c cs ih =>
    intro pre post h
    rw [splitFirst_cons] at h
    split at h
    · next hp =>
      simp only [Option.some.injEq, Prod.mk.injEq] at h
      rw [ List.isPrefixOf_iff_prefix] at hp
      obtain ⟨r, hr⟩ := hp
      rw [← h.1, ← h.2, ← hr, List.nil_append]
      rw [show (pat ++ r).drop pat.length = r from List.drop_left pat r]
    · next hp =>
      cases hsp : splitFirst pat cs with
      | none => rw [hsp] at h; exact Option.noConfusion h
      | some pr =>
        rw [hsp] at h
        simp only [Option.map_some', Option.some.injEq, Prod.mk.injEq] at h
        have := ih hsp
        rw [← h.1, ← h.2]
        simp [List.cons_append, this]

/-- Appending one newline to a pattern-free text keeps it pattern-free, for
a non-empty newline-free pattern. -/
theorem splitFirst_none_snoc_nl {pat d : List Char} (hne : pat ≠ [])
    (hnl : ('\n' : Char) ∉ pat) (h : splitFirst pat d = none) :
    splitFirst pat (d ++ ('\n' :: [])) = none := by
  cases hsp : splitFirst pat (d ++ ('\n' :: [])) with
  | none => rfl
  | some pr =>
    obtain ⟨pre, post⟩ := pr
    have heq := splitFirst_eq_append hsp
    exfalso
    cases hpost : post.reverse with
    | nil =>
      have hpost' : post = [] := by simpa using congrArg List.reverse hpost
      subst hpost'
      rw [List.append_nil] at heq
      have hrev := congrArg List.reverse heq
      simp only [List.reverse_append, List.reverse_cons, List.reverse_nil,
        List.nil_append] at hrev
      cases hpr : pat.reverse with
      | nil => exact hne (by simpa using congrArg List.reverse hpr)
      | cons e es =>
        rw [hpr] at hrev
        simp only [List.cons_append, List.cons.injEq] at hrev
        apply hnl
        rw [← List.mem_reverse, hpr, ← hrev.1]
        simp
    | cons y t =>
      have hpost' : post = t.reverse ++ (y :: []) := by
        simpa using congrArg List.reverse hpost
      subst hpost'
      rw [show pre ++ pat ++ (t.reverse ++ (y :: [])) =
        (pre ++ pat ++ t.reverse) ++ (y :: []) from by simp [List.append_assoc]] at heq
      obtain ⟨h1, _⟩ := List.append_inj' heq.symm (by simp)
      exact splitFirst_none_no_occur h pre t.reverse h1.symm

theorem stripFuel_nil : ∀ f : Nat, stripIssueBlocksFuel f [] = [] := by
  intro f
  cases f <;> rfl

theorem countFuel_nil : ∀ f : Nat, countIssueBlocksFuel f [] = 0 := by
  intro f
  cases f <;> rfl

theorem stripIssueBlocks_of_none {s : List Char}
    (h : splitFirst issueMakeStart s = none) : stripIssueBlocks s = s := by
  unfold stripIssueBlocks
  cases s.length with
  | zero => rfl
  | succ k => simp only [stripIssueBlocksFuel, h]

/-- Finding the start marker in document-plus-task: the first occurrence is
the task's own marker, right after the document and the template's leading
newline. -/
theorem splitFirst_start_doc_task (d : List Char) (i : BriefIssue) (sol : List Char)
    (hd : splitFirst issueMakeStart d = none) :
    splitFirst issueMakeStart (d ++ taskContent i sol) =
      some (d ++ ('\n' :: []), taskMid i sol ++ (issueMakeEnd ++ ('\n' :: []))) := by
  have hT : d ++ taskContent i sol =
      (d ++ ('\n' :: [])) ++
        (issueMakeStart ++ (taskMid i sol ++ (issueMakeEnd ++ ('\n' :: [])))) := by
    simp [taskContent, List.append_assoc]
  rw [hT]
  rw [splitFirst_append_from _ _
    (no_pat_start_in_snoc_nl (by decide) (by decide) hd _)]
  rw [splitFirst_at_pat _ (by decide)]
  simp

/-- Finding the end marker in the remainder of the task block: the first
occurrence is the task's own end marker, provided the rendered middle does
not contain it. -/
theorem splitFirst_end_task (i : BriefIssue) (sol : List Char)
    (hmidE : splitFirst issueMakeEnd (taskMid i sol) = none) :
    splitFirst issueMakeEnd (taskMid i sol ++ (issueMakeEnd ++ ('\n' :: []))) =
      some (taskMid i sol, '\n' :: []) := by
  have := @splitFirst_mid issueMakeEnd (taskMid i sol) ('\n' :: []) (by decide)
    (no_pat_start_before_self (by decide) hmidE issueMakeEnd_no_overlap)
  rw [← this]
  rw [List.append_assoc]

/-- Stripping the marker block from document-plus-task leaves the document
and the template's leading newline. -/
theorem stripIssueBlocks_doc_task (d : List Char) (i : BriefIssue) (sol : List Char)
    (hd : splitFirst issueMakeStart d = none)
    (hmidE : splitFirst issueMakeEnd (taskMid i sol) = none) :
    stripIssueBlocks (d ++ taskContent i sol) = d ++ ('\n' :: []) := by
  unfold stripIssueBlocks
  obtain ⟨k, hk⟩ : ∃ k, (d ++ taskContent i sol).length = k + 1 := by
    refine ⟨(d ++ taskContent i sol).length - 1, ?_⟩
    have hpos : 0 < (taskContent i sol).length := by simp [taskContent]
    simp only [List.length_append]
    omega
  rw [hk]
  simp only [stripIssueBlocksFuel, splitFirst_start_doc_task d i sol hd,
    splitFirst_end_task i sol hmidE]
  rw [show dropLeadNl ('\n' :: []) = [] from rfl, stripFuel_nil]
  simp

/-- Counting marker blocks in document-plus-task gives exactly one. -/
theorem countIssueBlocks_doc_task (d : List Char) (i : BriefIssue) (sol : List Char)
    (hd : splitFirst issueMakeStart d = none)
    (hmidE : splitFirst issueMakeEnd (taskMid i sol) = none) :
    countIssueBlocks (d ++ taskContent i sol) = 1 := by
  unfold countIssueBlocks
  obtain ⟨k, hk⟩ : ∃ k, (d ++ taskContent i sol).length = k + 1 := by
    refine ⟨(d ++ taskContent i sol).length - 1, ?_⟩
    have hpos : 0 < (taskContent i sol).length := by simp [taskContent]
    simp only [List.length_append]
    omega
  rw [hk]
  simp only [countIssueBlocksFuel, splitFirst_start_doc_task d i sol hd,
    splitFirst_end_task i sol hmidE]
  rw [show dropLeadNl ('\n' :: []) = [] from rfl, countFuel_nil]

set_option maxRecDepth 40000 in
/-- C3, counterexample.  Starting from the default AGENTS.md header with a
concrete issue, publishing twice produces a document different from
publishing once: each repeat inserts one extra newline before the block,
because the stripping regex consumes the newline after the end marker but
the template also starts with a newline of its own. -/
theorem claim_C3_counterexample :
    updateAgentsContent
        (some (updateAgentsContent (some defaultAgentsContent)
          ⟨'T' :: 'e' :: 's' :: 't' :: [], 0, IssueType.feat,
            '2' :: '0' :: '2' :: '6' :: [], 'd' :: []⟩
          ('s' :: 'o' :: 'l' :: [])))
        ⟨'T' :: 'e' :: 's' :: 't' :: [], 0, IssueType.feat,
          '2' :: '0' :: '2' :: '6' :: [], 'd' :: []⟩
        ('s' :: 'o' :: 'l' :: []) ≠
      updateAgentsContent (some defaultAgentsContent)
        ⟨'T' :: 'e' :: 's' :: 't' :: [], 0, IssueType.feat,
          '2' :: '0' :: '2' :: '6' :: [], 'd' :: []⟩
        ('s' :: 'o' :: 'l' :: []) := by decide

/-- C3, amended.  For every starting Brief containing no start marker and
every issue whose rendered block middle contains no end marker, publishing
twice leaves exactly one marker block, and the resulting document equals the
document produced by one publish except for a single extra newline inserted
between the prior content and the block (second publish yields the document,
a newline, and the block; first publish yields the document and the block,
whose template itself begins with a newline). -/
theorem claim_C3_amended (d : List Char) (i : BriefIssue) (sol : List Char)
    (hd : splitFirst issueMakeStart d = none)
    (hmidE : splitFirst issueMakeEnd (taskMid i sol) = none) :
    updateAgentsContent (some (updateAgentsContent (some d) i sol)) i sol =
      (d ++ ('\n' :: [])) ++ taskContent i sol ∧
    updateAgentsContent (some d) i sol = d ++ taskContent i sol ∧
    countIssueBlocks (updateAgentsContent (some (updateAgentsContent (some d) i sol)) i sol) = 1 := by
  have honce : updateAgentsContent (some d) i sol = d ++ taskContent i sol := by
    show stripIssueBlocks d ++ taskContent i sol = d ++ taskContent i sol
    rw [stripIssueBlocks_of_none hd]
  have hdnl : splitFirst issueMakeStart (d ++ ('\n' :: [])) = none :=
    splitFirst_none_snoc_nl (by decide) (by decide) hd
  refine ⟨?_, honce, ?_⟩
  · rw [honce]
    show stripIssueBlocks (d ++ taskContent i sol) ++ taskContent i sol =
      (d ++ ('\n' :: [])) ++ taskContent i sol
    rw [stripIssueBlocks_doc_task d i sol hd hmidE]
  · rw [honce]
    show countIssueBlocks
      (stripIssueBlocks (d ++ taskContent i sol) ++ taskContent i sol) = 1
    rw [stripIssueBlocks_doc_task d i sol hd hmidE]
    exact countIssueBlocks_doc_task (d ++ ('\n' :: [])) i sol hdnl hmidE

set_option maxRecDepth 40000 in
/-- C3, witness for the amended theorem at a concrete document and issue. -/
theorem claim_C3_witness :
    updateAgentsContent
        (some (updateAgentsContent (some defaultAgentsContent)
          ⟨'T' :: [], 1, IssueType.bug, '2' :: '0' :: [], 'c' :: []⟩ ('s' :: [])))
        ⟨'T' :: [], 1, IssueType.bug, '2' :: '0' :: [], 'c' :: []⟩ ('s' :: []) =
      (defaultAgentsContent ++ ('\n' :: [])) ++
        taskContent ⟨'T' :: [], 1, IssueType.bug, '2' :: '0' :: [], 'c' :: []⟩ ('s' :: []) ∧
    countIssueBlocks
        (updateAgentsContent
          (some (updateAgentsContent (some defaultAgentsContent)
            ⟨'T' :: [], 1, IssueType.bug, '2' :: '0' :: [], 'c' :: []⟩ ('s' :: [])))
          ⟨'T' :: [], 1, IssueType.bug, '2' :: '0' :: [], 'c' :: []⟩ ('s' :: [])) = 1 := by
  have h := claim_C3_amended defaultAgentsContent
    ⟨'T' :: [], 1, IssueType.bug, '2' :: '0' :: [], 'c' :: []⟩ ('s' :: [])
    (by decide) (by decide)
  exact ⟨h.1, h.2.2⟩

/-! The issue store: FileManager's stateful operations over the directory
tree, embedded as pure functions on a Store value.  A directory is a list of
(filename, content) pairs in listing order; writeFile either overwrites the
entry with the same name or appends a new entry; rename and unlink fail when
the source name is absent (the thrown error is caught by the source's
try/catch, producing an error result after any mutations already made).
I/O failures other than a missing file are not injected.  File loading infers
the stage from the directory scanned, which matches the source's
filePath.includes check for base paths that do not contain the substring
"doing". -/

/-- Embedding of the IssueStatus enumeration (src/core/types.ts). -/
inductive IssueStatus where
  | stash
  | doing
  | achieved
deriving DecidableEq, Repr

/-- A directory listing. -/
abbrev Dir : Type := List (List Char × List Char)

/-- The on-disk state the FileManager operates on. -/
structure Store where
  stash : Dir
  doing : Dir
  achieved : Dir
  solution : Option (List Char)
deriving DecidableEq, Repr

/-- The store with all three stage directories present and empty, and no
solution artifact. -/
def emptyStore : Store := ⟨[], [], [], none⟩

/-- Membership of a filename in a directory. -/
def dirHas (d : Dir) (name : List Char) : Bool :=
  d.any (fun f => f.1 = name)

/-- Semantics of fs.writeFile: overwrite the entry of that name, or create a
new one. -/
def fsWrite (d : Dir) (name content : List Char) : Dir :=
  if dirHas d name then
    d.map (fun f => if f.1 = name then (name, content) else f)
  else d ++ ((name, content) :: [])

/-- Semantics of fs.unlink / the removal half of fs.rename. -/
def fsRemove (d : Dir) (name : List Char) : Dir :=
  d.filter (fun f => ¬ f.1 = name)

/-- Embedding of the IssueFile record (src/core/types.ts); createDate holds
the raw Create Date string (the Date value is not otherwise inspected). -/
structure IssueFile where
  title : List Char
  number : Nat
  type : IssueType
  content : List Char
  createDate : List Char
  status : IssueStatus
deriving DecidableEq, Repr

/-- The outcome of a search (IssueSearchResult): a found issue, or a
not-found/error message. -/
inductive SearchOutcome where
  | found (issue : IssueFile)
  | notFound (error : List Char)
deriving DecidableEq, Repr

/-- Semantics of filename.replace(/\.\d+\.md$/, '') (loadIssueFile line
398): remove the active-filename suffix when present, otherwise keep the
name. -/
def stripIssueSuffix (name : List Char) : List Char :=
  let rev := name.reverse
  if rev.take 3 = ('d' :: 'm' :: '.' :: []) then
    let ds := (rev.drop 3).takeWhile isDigitChar
    let rest := (rev.drop 3).dropWhile isDigitChar
    if ds ≠ [] ∧ rest.head? = some '.' then (rest.drop 1).reverse else name
  else name

/-- Embedding of FileManager.loadIssueFile (src/core/file-manager.ts lines
391-430) on a file found in the given directory: parse the frontmatter,
reject an unrecognized type, take the number from the filename (0 when
absent), the title from the filename without its suffix, and the stage from
the directory scanned. -/
def loadIssueFile (tag : IssueStatus) (name content : List Char) : SearchOutcome :=
  let parsed := parseIssueFile content
  match parsed.1 with
  | none => .notFound ("Invalid issue type in ".toList ++ name)
  | some m =>
    .found ⟨stripIssueSuffix name, (extractIssueNumber name).getD 0, m.type,
      parsed.2, m.createDate, tag⟩

/-- JavaScript string rendering of a (possibly negative) integer. -/
def intChars (n : Int) : List Char :=
  if n < 0 then '-' :: natDigits n.natAbs else natDigits n.toNat

/-- Embedding of FileManager.findIssueByNumber (lines 177-211): scan stash
then doing for the first file whose extracted number equals the requested
one (a strict === comparison, so files without a number never match), and
load it. -/
def findIssueByNumber (number : Int) (s : Store) : SearchOutcome :=
  match s.stash.find? (fun f =>
      match extractIssueNumber f.1 with
      | some m => (m : Int) = number
      | none => false) with
  | some f => loadIssueFile .stash f.1 f.2
  | none =>
    match s.doing.find? (fun f =>
        match extractIssueNumber f.1 with
        | some m => (m : Int) = number
        | none => false) with
    | some f => loadIssueFile .doing f.1 f.2
    | none =>
      .notFound ("Issue with number ".toList ++ intChars number ++ " not found".toList)

/-- ASCII lowercasing, the embedding of String.prototype.toLowerCase
restricted to the ASCII range (sufficient for every string these theorems
evaluate; the source lowercases the full Unicode range). -/
def jsToLower (c : Char) : Char := c.toLower

/-- The letter-or-number character class \p{L}\p{N}, embedded for the ASCII
range (sufficient for every string these theorems evaluate). -/
def unicodeLN (c : Char) : Bool := c.isAlpha || isDigitChar c

/-- Embedding of FileManager.normalizeTitleForSearch (lines 465-472):
lowercase, dashes/underscores to spaces, runs of non letter/number/space
characters to spaces, collapse whitespace, trim. -/
def normalizeTitleForSearch (t : List Char) : List Char :=
  let t1 := t.map jsToLower
  let t2 := collapseRuns (fun c => c = '-' ∨ c = '_') ' ' t1
  let t3 := collapseRuns (fun c => !(unicodeLN c || jsWhitespace c)) ' ' t2
  let t4 := collapseRuns jsWhitespace ' ' t3
  jsTrim t4

/-- Semantics of String.prototype.includes: some occurrence of the needle in
the haystack. -/
def jsIncludes (hay needle : List Char) : Bool :=
  (splitFirst needle hay).isSome

/-- Embedding of FileManager.findIssueByTitle (lines 218-272): normalize the
query; fail when it normalizes to nothing; scan stash then doing for the
first issue file whose filename-derived normalized title contains the
normalized query or vice versa, and load it. -/
def findIssueByTitle (title : List Char) (s : Store) : SearchOutcome :=
  let searchNormalized := normalizeTitleForSearch title
  if searchNormalized = [] then
    .notFound ("Issue with title containing the query not found".toList)
  else
    let matchesF := fun (f : List Char × List Char) =>
      isIssueFile f.1 &&
        (let fileNormalized :=
          normalizeTitleForSearch ((stripIssueSuffix f.1).map jsToLower)
        jsIncludes fileNormalized searchNormalized ||
          jsIncludes searchNormalized fileNormalized)
    match s.stash.find? matchesF with
    | some f => loadIssueFile .stash f.1 f.2
    | none =>
      match s.doing.find? matchesF with
      | some f => loadIssueFile .doing f.1 f.2
      | none =>
        .notFound ("Issue with title containing the query not found".toList)

/-- Leading decimal digits of a string, as consumed by parseInt after sign
handling: none when the first character is not a digit. -/
def parseDigitsPre (l : List Char) : Option Nat :=
  let ds := l.takeWhile isDigitChar
  if ds = [] then none else some (digitsToNat ds)

/-- Embedding of JavaScript parseInt(identifier, 10): skip leading
whitespace, accept an optional sign, then consume leading digits; NaN (none)
when no digit follows. -/
def jsParseInt (s : List Char) : Option Int :=
  match s.dropWhile jsWhitespace with
  | [] => none
  | c :: r =>
    if c = '-' then (parseDigitsPre r).map (fun n => -(Int.ofNat n))
    else if c = '+' then (parseDigitsPre r).map (fun n => Int.ofNat n)
    else (parseDigitsPre (c :: r)).map (fun n => Int.ofNat n)

/-- Embedding of FileManager.findIssue (lines 154-170): parseInt the
identifier; when it is a number delegate to find-by-number, otherwise to
find-by-title. -/
def findIssue (identifier : List Char) (s : Store) : SearchOutcome :=
  match jsParseInt identifier with
  | some n => findIssueByNumber n s
  | none => findIssueByTitle identifier s

/-- One step of getNextId's scan: keep the maximum of the accumulator and
the extracted id, ignoring files without one. -/
def maxIdStep (acc : Int) (f : List Char × List Char) : Int :=
  match extractIssueNumber f.1 with
  | some n => if (n : Int) > acc then (n : Int) else acc
  | none => acc

/-- Embedding of FileManager.getNextId (lines 68-101): the maximum extracted
id over the stash then doing listings, starting from -1, plus one.  A
missing directory reads as an empty listing. -/
def getNextId (s : Store) : Nat :=
  (s.doing.foldl maxIdStep (s.stash.foldl maxIdStep (-1)) + 1).toNat

/-- Embedding of FileManager.createIssue (lines 110-147): ensure the
directories (a no-op here), allocate the id, write the formatted file into
stash, and return the issue record.  Write failures are not injected, so the
operation always succeeds in the model. -/
def createIssue (title : List Char) (type : IssueType) (content today : List Char)
    (s : Store) : IssueFile × Store :=
  let id := getNextId s
  let filename := generateIssueFilename title id
  let fileContent := formatIssueFile ⟨today, type, id⟩ content
  (⟨title, id, type, content, today, .stash⟩,
    { s with stash := fsWrite s.stash filename fileContent })

/-- The outcome of an open or close operation, with the state it leaves
behind returned separately. -/
inductive OpOutcome where
  | ok (issue : IssueFile)
  | okPath (path : List Char)
  | err (error : List Char)
deriving DecidableEq, Repr

/-- Embedding of FileManager.openIssue (lines 279-328): resolve the issue;
fail when it is absent or already in the doing stage; otherwise rename the
regenerated filename from its stage directory (stash when the status is
stash, otherwise the achieved directory, mirroring the source's ternary)
into doing, then write the seeded solution file.  A rename whose source file
is missing throws and is caught, leaving the state unchanged. -/
def openIssue (identifier : List Char) (s : Store) : OpOutcome × Store :=
  match findIssue identifier s with
  | .notFound e => (.err e, s)
  | .found issue =>
    if issue.status = .doing then
      (.err ("Issue #".toList ++ natDigits issue.number ++
        " is already in progress".toList), s)
    else
      let name := generateIssueFilename issue.title issue.number
      let src := if issue.status = .stash then s.stash else s.achieved
      match src.find? (fun f => f.1 = name) with
      | none => (.err ("Failed to open issue: rename".toList), s)
      | some f =>
        let s1 :=
          if issue.status = .stash then { s with stash := fsRemove s.stash name }
          else { s with achieved := fsRemove s.achieved name }
        let s2 := { s1 with doing := fsWrite s1.doing name f.2 }
        let s3 := { s2 with solution := some ("# Solution for Issue #".toList ++
          natDigits issue.number ++ ": ".toList ++ issue.title ++ "\n\n".toList) }
        (.ok issue, s3)

/-- The exact error message of the solution gate in closeIssue (line
354). -/
def solutionMissingMsg : List Char :=
  "Solution file not found. Please create solution.md first.".toList

/-- Embedding of FileManager.closeIssue (lines 335-384): resolve the issue;
fail when it is absent; fail with the solution-missing message when
solution.md does not exist, before any mutation; otherwise write the
archived file combining the content with the solution, unlink the doing-
stage file (a missing file throws after the archived write, leaving a
partial state), and delete the solution file. -/
def closeIssue (identifier : List Char) (s : Store) : OpOutcome × Store :=
  match findIssue identifier s with
  | .notFound e => (.err e, s)
  | .found issue =>
    match s.solution with
    | none => (.err solutionMissingMsg, s)
    | some solutionContent =>
      let oldName := generateIssueFilename issue.title issue.number
      let newName := generateAchievedFilename issue.title
      let combined := issue.content ++ "\n\n---\n\n## Solution\n\n".toList ++
        solutionContent
      let s1 := { s with achieved := fsWrite s.achieved newName combined }
      if dirHas s1.doing oldName then
        let s2 := { s1 with doing := fsRemove s1.doing oldName }
        (.okPath newName, { s2 with solution := none })
      else
        (.err ("Failed to close issue: unlink".toList), s1)

/-- One caller-visible operation on the store. -/
inductive Op where
  | create (title : List Char) (type : IssueType) (content today : List Char)
  | openI (identifier : List Char)
  | closeI (identifier : List Char)
deriving DecidableEq, Repr

/-- Application of one operation, keeping only the state. -/
def applyOp (s : Store) (op : Op) : Store :=
  match op with
  | .create t ty c d => (createIssue t ty c d s).2
  | .openI i => (openIssue i s).2
  | .closeI i => (closeIssue i s).2

/-- Run a sequence of operations from a state. -/
def runOps (s : Store) (ops : List Op) : Store :=
  ops.foldl applyOp s

/-- The numbers assigned by the create operations of a trace, in order. -/
def createdIds (s : Store) : List Op → List Nat
  | [] => []
  | op :: ops =>
    match op with
    | .create _ _ _ _ => getNextId s :: createdIds (applyOp s op) ops
    | _ => createdIds (applyOp s op) ops

/-- The extracted ids of a directory listing. -/
def dirIds (d : Dir) : List Nat :=
  d.filterMap (fun f => extractIssueNumber f.1)

/-- The ids live in the store: stash and doing (the directories getNextId
scans and uniqueness is claimed over). -/
def liveIds (s : Store) : List Nat :=
  dirIds s.stash ++ dirIds s.doing

/-- Truth of an operation list containing no close operation. -/
def isCloseOp : Op → Bool
  | .closeI _ => true
  | _ => false

/-! Facts about getNextId's fold. -/

theorem le_foldl_maxIdStep (d : Dir) : ∀ acc : Int, acc ≤ d.foldl maxIdStep acc := by
  induction d with
  | nil => intro acc; simp
  | cons f t ih =>
    intro acc
    rw [List.foldl_cons]
    refine le_trans ?_ (ih (maxIdStep acc f))
    unfold maxIdStep
    split
    · split <;> omega
    · exact le_refl acc

theorem mem_le_foldl_maxIdStep (d : Dir) : ∀ acc : Int, ∀ f ∈ d, ∀ n : Nat,
    extractIssueNumber f.1 = some n → (n : Int) ≤ d.foldl maxIdStep acc := by
  induction d with
  | nil => simp
  | cons g t ih =>
    intro acc f hf n hext
    rw [List.foldl_cons]
    rcases List.mem_cons.mp hf with rfl | hft
    · refine le_trans ?_ (le_foldl_maxIdStep t (maxIdStep acc f))
      simp only [maxIdStep, hext]
      split <;> omega
    · exact ih (maxIdStep acc g) f hft n hext

theorem dirIds_cons (f : List Char × List Char) (t : Dir) :
    dirIds (f :: t) = match extractIssueNumber f.1 with
      | none => dirIds t
      | some n => n :: dirIds t := by
  cases hext : extractIssueNumber f.1 with
  | none =>
    unfold dirIds
    rw [List.filterMap_cons]
    simp [hext]
  | some n =>
    unfold dirIds
    rw [List.filterMap_cons]
    simp [hext]

theorem mem_dirIds_cons_of_mem {n : Nat} {f : List Char × List Char} {t : Dir}
    (h : n ∈ dirIds t) : n ∈ dirIds (f :: t) := by
  rw [dirIds_cons]
  cases extractIssueNumber f.1 <;> simp [h]

theorem foldl_maxIdStep_attained (d : Dir) : ∀ acc : Int,
    d.foldl maxIdStep acc = acc ∨
      ∃ n ∈ dirIds d, d.foldl maxIdStep acc = (n : Int) := by
  induction d with
  | nil => intro acc; exact Or.inl rfl
  | cons f t ih =>
    intro acc
    rw [List.foldl_cons]
    rcases ih (maxIdStep acc f) with h | ⟨n, hn, hh⟩
    · rw [h]
      cases hext : extractIssueNumber f.1 with
      | none => exact Or.inl (by simp only [maxIdStep, hext])
      | some n =>
        simp only [maxIdStep, hext]
        split
        · exact Or.inr ⟨n, by rw [dirIds_cons, hext]; simp, rfl⟩
        · exact Or.inl rfl
    · exact Or.inr ⟨n, mem_dirIds_cons_of_mem hn, hh⟩

theorem mem_liveIds_lt_getNextId {s : Store} {n : Nat} (h : n ∈ liveIds s) :
    n < getNextId s := by
  unfold liveIds at h
  unfold getNextId
  rcases List.mem_append.mp h with h1 | h1
  · obtain ⟨f, hf, hext⟩ := List.mem_filterMap.mp h1
    have h2 : (n : Int) ≤ s.stash.foldl maxIdStep (-1) :=
      mem_le_foldl_maxIdStep _ _ f hf n hext
    have h3 := le_foldl_maxIdStep s.doing (s.stash.foldl maxIdStep (-1))
    omega
  · obtain ⟨f, hf, hext⟩ := List.mem_filterMap.mp h1
    have h2 : (n : Int) ≤ s.doing.foldl maxIdStep (s.stash.foldl maxIdStep (-1)) :=
      mem_le_foldl_maxIdStep _ _ f hf n hext
    omega

theorem getNextId_cases (s : Store) :
    getNextId s = 0 ∨ ∃ n ∈ liveIds s, getNextId s = n + 1 := by
  unfold getNextId liveIds
  rcases foldl_maxIdStep_attained s.doing (s.stash.foldl maxIdStep (-1)) with h2 | ⟨n, hn, h2⟩
  · rcases foldl_maxIdStep_attained s.stash (-1) with h1 | ⟨n, hn, h1⟩
    · rw [h2, h1]
      exact Or.inl rfl
    · refine Or.inr ⟨n, List.mem_append.mpr (Or.inl hn), ?_⟩
      rw [h2, h1]
      omega
  · refine Or.inr ⟨n, List.mem_append.mpr (Or.inr hn), ?_⟩
    rw [h2]
    omega

theorem getNextId_mono_of_mem {s s' : Store}
    (h : ∀ n ∈ liveIds s, n ∈ liveIds s') : getNextId s ≤ getNextId s' := by
  rcases getNextId_cases s with h1 | ⟨n, hn, h1⟩
  · omega
  · have h2 := mem_liveIds_lt_getNextId (h n hn)
    omega

/-- Two directory entries with the same extracted id coincide when the
directory's ids are duplicate-free. -/
theorem dirIds_nodup_unique {d : Dir} (h : (dirIds d).Nodup)
    {f g : List Char × List Char} (hf : f ∈ d) (hg : g ∈ d) {k : Nat}
    (hfk : extractIssueNumber f.1 = some k)
    (hgk : extractIssueNumber g.1 = some k) : f = g := by
  induction d with
  | nil => simp at hf
  | cons a t ih =>
    rcases List.mem_cons.mp hf with rfl | hft
    · rcases List.mem_cons.mp hg with rfl | hgt
      · rfl
      · exfalso
        rw [dirIds_cons, hfk] at h
        have hk : k ∈ dirIds t := List.mem_filterMap.mpr ⟨g, hgt, hgk⟩
        exact (List.nodup_cons.mp h).1 hk
    · rcases List.mem_cons.mp hg with rfl | hgt
      · exfalso
        rw [dirIds_cons, hgk] at h
        have hk : k ∈ dirIds t := List.mem_filterMap.mpr ⟨f, hft, hfk⟩
        exact (List.nodup_cons.mp h).1 hk
      · refine ih ?_ hft hgt
        rw [dirIds_cons] at h
        revert h
        cases extractIssueNumber a.1 with
        | none => exact id
        | some m => exact fun h => (List.nodup_cons.mp h).2

theorem loadIssueFile_status {tag : IssueStatus} {name content : List Char}
    {issue : IssueFile} (h : loadIssueFile tag name content = .found issue) :
    issue.status = tag := by
  simp only [loadIssueFile] at h
  split at h
  · exact SearchOutcome.noConfusion h
  · simp only [SearchOutcome.found.injEq] at h
    rw [← h]

theorem findIssueByNumber_status {number : Int} {s : Store} {issue : IssueFile}
    (h : findIssueByNumber number s = .found issue) :
    issue.status = .stash ∨ issue.status = .doing := by
  unfold findIssueByNumber at h
  split at h
  · exact Or.inl (loadIssueFile_status h)
  · split at h
    · exact Or.inr (loadIssueFile_status h)
    · exact SearchOutcome.noConfusion h

theorem findIssueByTitle_status {title : List Char} {s : Store} {issue : IssueFile}
    (h : findIssueByTitle title s = .found issue) :
    issue.status = .stash ∨ issue.status = .doing := by
  simp only [findIssueByTitle] at h
  split at h
  · exact SearchOutcome.noConfusion h
  · split at h
    · exact Or.inl (loadIssueFile_status h)
    · split at h
      · exact Or.inr (loadIssueFile_status h)
      · exact SearchOutcome.noConfusion h

theorem findIssue_status {identifier : List Char} {s : Store} {issue : IssueFile}
    (h : findIssue identifier s = .found issue) :
    issue.status = .stash ∨ issue.status = .doing := by
  unfold findIssue at h
  split at h
  · exact findIssueByNumber_status h
  · exact findIssueByTitle_status h

/-! Directory bookkeeping lemmas. -/

theorem dirHas_iff {d : Dir} {name : List Char} :
    dirHas d name = true ↔ ∃ f ∈ d, f.1 = name := by
  simp [dirHas, List.any_eq_true]

theorem mem_dirIds_of_named {d : Dir} {name : List Char} {k : Nat}
    (hk : extractIssueNumber name = some k) (h : dirHas d name = true) :
    k ∈ dirIds d := by
  obtain ⟨f, hf, hfname⟩ := dirHas_iff.mp h
  exact List.mem_filterMap.mpr ⟨f, hf, by rw [hfname]; exact hk⟩

theorem fsWrite_append {d : Dir} {name content : List Char}
    (h : dirHas d name = false) :
    fsWrite d name content = d ++ ((name, content) :: []) := by
  unfold fsWrite
  rw [if_neg (by simp [h])]

theorem dirIds_append (d1 d2 : Dir) : dirIds (d1 ++ d2) = dirIds d1 ++ dirIds d2 := by
  unfold dirIds
  exact List.filterMap_append _ _ _

theorem dirIds_singleton {name content : List Char} {k : Nat}
    (hk : extractIssueNumber name = some k) :
    dirIds ((name, content) :: []) = k :: [] := by
  rw [dirIds_cons]
  simp only [hk]
  rfl

theorem mem_dirIds_fsRemove {d : Dir} {name : List Char} {n : Nat}
    (h : n ∈ dirIds d) :
    n ∈ dirIds (fsRemove d name) ∨ extractIssueNumber name = some n := by
  obtain ⟨f, hf, hext⟩ := List.mem_filterMap.mp h
  by_cases hname : f.1 = name
  · right
    rw [← hname]
    exact hext
  · left
    refine List.mem_filterMap.mpr ⟨f, ?_, hext⟩
    unfold fsRemove
    rw [List.mem_filter]
    exact ⟨hf, by simp [hname]⟩

theorem dirIds_fsRemove_sublist (d : Dir) (name : List Char) :
    List.Sublist (dirIds (fsRemove d name)) (dirIds d) :=
  List.Sublist.filterMap _ (List.filter_sublist d)

theorem not_mem_dirIds_fsRemove {d : Dir} {name : List Char} {k : Nat}
    (hnodup : (dirIds d).Nodup) (hk : extractIssueNumber name = some k)
    (hhas : dirHas d name = true) : k ∉ dirIds (fsRemove d name) := by
  intro hmem
  obtain ⟨g, hg, hgk⟩ := List.mem_filterMap.mp hmem
  have hgd : g ∈ d := List.mem_of_mem_filter hg
  have hgname : ¬ (g.1 = name) := by
    have := (List.mem_filter.mp hg).2
    simpa using this
  obtain ⟨f, hf, hfname⟩ := dirHas_iff.mp hhas
  have hfg : f = g := dirIds_nodup_unique hnodup hf hgd (k := k)
    (by rw [hfname]; exact hk) hgk
  rw [hfg] at hfname
  exact hgname hfname

/-! State characterizations of create, open and close, and invariant
preservation. -/

theorem create_step {title : List Char} {type : IssueType} {content today : List Char}
    {s : Store} (hInv : (liveIds s).Nodup) :
    (liveIds (createIssue title type content today s).2).Nodup ∧
    (∀ n ∈ liveIds s, n ∈ liveIds (createIssue title type content today s).2) ∧
    getNextId s ∈ liveIds (createIssue title type content today s).2 := by
  have hext := extractIssueNumber_generateIssueFilename title (getNextId s)
  have hnotin : getNextId s ∉ liveIds s := fun h =>
    absurd (mem_liveIds_lt_getNextId h) (by omega)
  have hnostash : getNextId s ∉ dirIds s.stash := fun h =>
    hnotin (List.mem_append.mpr (Or.inl h))
  have hhas : dirHas s.stash (generateIssueFilename title (getNextId s)) = false := by
    by_contra hc
    simp only [Bool.not_eq_false] at hc
    exact hnostash (mem_dirIds_of_named hext hc)
  have hlive : liveIds (createIssue title type content today s).2 =
      (dirIds s.stash ++ (getNextId s :: [])) ++ dirIds s.doing := by
    show dirIds (fsWrite s.stash (generateIssueFilename title (getNextId s))
      (formatIssueFile ⟨today, type, getNextId s⟩ content)) ++ dirIds s.doing = _
    rw [fsWrite_append hhas, dirIds_append, dirIds_singleton hext]
  have hperm : List.Perm ((dirIds s.stash ++ (getNextId s :: [])) ++ dirIds s.doing)
      (getNextId s :: (dirIds s.stash ++ dirIds s.doing)) := by
    rw [List.append_assoc]
    exact List.perm_middle
  refine ⟨?_, ?_, ?_⟩
  · rw [hlive]
    refine hperm.nodup_iff.mpr ?_
    rw [List.nodup_cons]
    exact ⟨hnotin, hInv⟩
  · intro n hn
    rw [hlive]
    rcases List.mem_append.mp hn with h1 | h1
    · exact List.mem_append.mpr (Or.inl (List.mem_append.mpr (Or.inl h1)))
    · exact List.mem_append.mpr (Or.inr h1)
  · rw [hlive]
    exact List.mem_append.mpr (Or.inl (List.mem_append.mpr (Or.inr (by simp))))

/-- The effect of the successful rename in openIssue on the live ids: the
named file leaves stash and enters doing, preserving distinctness and
membership of all live ids. -/
theorem move_step {s : Store} (hInv : (liveIds s).Nodup)
    {name : List Char} {k : Nat} (hk : extractIssueNumber name = some k)
    (hhas : dirHas s.stash name = true) (content : List Char) :
    ((dirIds (fsRemove s.stash name) ++ dirIds (fsWrite s.doing name content)).Nodup) ∧
    (∀ n ∈ liveIds s,
      n ∈ dirIds (fsRemove s.stash name) ++ dirIds (fsWrite s.doing name content)) := by
  have hInv' : (dirIds s.stash ++ dirIds s.doing).Nodup := hInv
  have hkstash : k ∈ dirIds s.stash := mem_dirIds_of_named hk hhas
  have hkdoing : k ∉ dirIds s.doing := (List.disjoint_of_nodup_append hInv') hkstash
  have hdhas : dirHas s.doing name = false := by
    by_contra hc
    simp only [Bool.not_eq_false] at hc
    exact hkdoing (mem_dirIds_of_named hk hc)
  have hids : dirIds (fsWrite s.doing name content) = dirIds s.doing ++ (k :: []) := by
    rw [fsWrite_append hdhas, dirIds_append, dirIds_singleton hk]
  have hknotstash : k ∉ dirIds (fsRemove s.stash name) :=
    not_mem_dirIds_fsRemove (List.Nodup.of_append_left hInv') hk hhas
  constructor
  · rw [hids]
    have hXY : (dirIds (fsRemove s.stash name) ++ dirIds s.doing).Nodup :=
      hInv'.sublist (List.Sublist.append
        (dirIds_fsRemove_sublist s.stash name) (List.Sublist.refl _))
    have h1 : dirIds (fsRemove s.stash name) ++ (dirIds s.doing ++ (k :: [])) =
        (dirIds (fsRemove s.stash name) ++ dirIds s.doing) ++ (k :: []) := by
      rw [List.append_assoc]
    rw [h1]
    refine (List.perm_append_singleton _ _).nodup_iff.mpr ?_
    rw [List.nodup_cons]
    refine ⟨?_, hXY⟩
    intro hc
    rcases List.mem_append.mp hc with h2 | h2
    · exact hknotstash h2
    · exact hkdoing h2
  · intro n hn
    rw [hids]
    rcases List.mem_append.mp hn with h1 | h1
    · rcases @mem_dirIds_fsRemove s.stash name n h1 with h2 | h2
      · exact List.mem_append.mpr (Or.inl h2)
      · have hnk : n = k := Option.some.inj (h2.symm.trans hk)
        subst hnk
        exact List.mem_append.mpr (Or.inr (List.mem_append.mpr (Or.inr (by simp))))
    · exact List.mem_append.mpr (Or.inr (List.mem_append.mpr (Or.inl h1)))

theorem open_step {identifier : List Char} {s : Store} (hInv : (liveIds s).Nodup) :
    (liveIds (openIssue identifier s).2).Nodup ∧
    (∀ n ∈ liveIds s, n ∈ liveIds (openIssue identifier s).2) := by
  cases hfind : findIssue identifier s with
  | notFound e =>
    have hs : (openIssue identifier s).2 = s := by
      simp only [openIssue, hfind]
    rw [hs]
    exact ⟨hInv, fun n h => h⟩
  | found issue =>
    by_cases hst : issue.status = .doing
    · have hs : (openIssue identifier s).2 = s := by
        simp only [openIssue, hfind, if_pos hst]
      rw [hs]
      exact ⟨hInv, fun n h => h⟩
    · have hstsh : issue.status = .stash := by
        rcases findIssue_status hfind with h | h
        · exact h
        · exact absurd h hst
      cases hfd : s.stash.find?
          (fun f => f.1 = generateIssueFilename issue.title issue.number) with
      | none =>
        have hs : (openIssue identifier s).2 = s := by
          simp only [openIssue, hfind, if_neg hst, if_pos hstsh, hfd]
        rw [hs]
        exact ⟨hInv, fun n h => h⟩
      | some f =>
        have hf1 : f.1 = generateIssueFilename issue.title issue.number := by
          simpa using List.find?_some hfd
        have hhas : dirHas s.stash (generateIssueFilename issue.title issue.number) = true :=
          dirHas_iff.mpr ⟨f, List.mem_of_find?_eq_some hfd, hf1⟩
        have h1 : (openIssue identifier s).2.stash =
            fsRemove s.stash (generateIssueFilename issue.title issue.number) := by
          simp only [openIssue, hfind, if_neg hst, if_pos hstsh, hfd]
        have h2 : (openIssue identifier s).2.doing =
            fsWrite s.doing (generateIssueFilename issue.title issue.number) f.2 := by
          simp only [openIssue, hfind, if_neg hst, if_pos hstsh, hfd]
        have hl : liveIds (openIssue identifier s).2 =
            dirIds (openIssue identifier s).2.stash ++
              dirIds (openIssue identifier s).2.doing := rfl
        rw [hl, h1, h2]
        exact move_step hInv (extractIssueNumber_generateIssueFilename _ _) hhas f.2

theorem closeIssue_dirs (identifier : List Char) (s : Store) :
    ((closeIssue identifier s).2.stash = s.stash) ∧
    ((closeIssue identifier s).2.doing = s.doing ∨
      ∃ name, (closeIssue identifier s).2.doing = fsRemove s.doing name) := by
  cases hfind : findIssue identifier s with
  | notFound e =>
    have hs : (closeIssue identifier s).2 = s := by
      simp only [closeIssue, hfind]
    rw [hs]
    exact ⟨rfl, Or.inl rfl⟩
  | found issue =>
    cases hsol : s.solution with
    | none =>
      have hs : (closeIssue identifier s).2 = s := by
        simp only [closeIssue, hfind, hsol]
      rw [hs]
      exact ⟨rfl, Or.inl rfl⟩
    | some sc =>
      by_cases hhas : dirHas s.doing (generateIssueFilename issue.title issue.number) = true
      · have h1 : (closeIssue identifier s).2.stash = s.stash := by
          simp only [closeIssue, hfind, hsol]
          rw [if_pos hhas]
        have h2 : (closeIssue identifier s).2.doing =
            fsRemove s.doing (generateIssueFilename issue.title issue.number) := by
          simp only [closeIssue, hfind, hsol]
          rw [if_pos hhas]
        exact ⟨h1, Or.inr ⟨generateIssueFilename issue.title issue.number, h2⟩⟩
      · have h1 : (closeIssue identifier s).2.stash = s.stash := by
          simp only [closeIssue, hfind, hsol]
          rw [if_neg hhas]
        have h2 : (closeIssue identifier s).2.doing = s.doing := by
          simp only [closeIssue, hfind, hsol]
          rw [if_neg hhas]
        exact ⟨h1, Or.inl h2⟩

theorem close_step {identifier : List Char} {s : Store}
    (hInv : (liveIds s).Nodup) : (liveIds (closeIssue identifier s).2).Nodup := by
  obtain ⟨hstash, hdoing⟩ := closeIssue_dirs identifier s
  have hl : liveIds (closeIssue identifier s).2 =
      dirIds (closeIssue identifier s).2.stash ++
        dirIds (closeIssue identifier s).2.doing := rfl
  rw [hl, hstash]
  rcases hdoing with h | ⟨name, h⟩
  · rw [h]
    exact hInv
  · rw [h]
    exact hInv.sublist (List.Sublist.append (List.Sublist.refl _)
      (dirIds_fsRemove_sublist s.doing name))

theorem applyOp_nodup {s : Store} (hInv : (liveIds s).Nodup) (op : Op) :
    (liveIds (applyOp s op)).Nodup := by
  cases op with
  | create t ty c d => exact (create_step hInv).1
  | openI i => exact (open_step hInv).1
  | closeI i => exact close_step hInv

theorem runOps_nodup (ops : List Op) :
    ∀ s : Store, (liveIds s).Nodup → (liveIds (runOps s ops)).Nodup := by
  induction ops with
  | nil => intro s h; exact h
  | cons op rest ih =>
    intro s h
    exact ih _ (applyOp_nodup h op)

theorem applyOp_mem {s : Store} (hInv : (liveIds s).Nodup) {op : Op}
    (hop : isCloseOp op = false) :
    ∀ n ∈ liveIds s, n ∈ liveIds (applyOp s op) := by
  cases op with
  | create t ty c d => exact (create_step hInv).2.1
  | openI i => exact (open_step hInv).2
  | closeI i => simp [isCloseOp] at hop

theorem applyOp_getNextId_mono {s : Store} (hInv : (liveIds s).Nodup) {op : Op}
    (hop : isCloseOp op = false) : getNextId s ≤ getNextId (applyOp s op) :=
  getNextId_mono_of_mem (applyOp_mem hInv hop)

theorem createdIds_lower (ops : List Op) :
    ∀ s : Store, (liveIds s).Nodup →
    ops.all (fun op => !isCloseOp op) = true →
    ∀ n ∈ createdIds s ops, getNextId s ≤ n := by
  induction ops with
  | nil => intro s _ _ n hn; simp [createdIds] at hn
  | cons op rest ih =>
    intro s hInv hall n hn
    rw [List.all_cons, Bool.and_eq_true] at hall
    obtain ⟨hop, hrest⟩ := hall
    have hopf : isCloseOp op = false := by simpa using hop
    cases op with
    | create t ty c d =>
      simp only [createdIds] at hn
      rcases List.mem_cons.mp hn with rfl | hn2
      · exact le_refl _
      · have h1 := ih (applyOp s (.create t ty c d)) (applyOp_nodup hInv _) hrest n hn2
        have h2 := applyOp_getNextId_mono hInv hopf
        omega
    | openI i =>
      simp only [createdIds] at hn
      have h1 := ih (applyOp s (.openI i)) (applyOp_nodup hInv _) hrest n hn
      have h2 := applyOp_getNextId_mono hInv hopf
      omega
    | closeI i => simp [isCloseOp] at hopf

theorem createdIds_chain (ops : List Op) :
    ∀ s : Store, (liveIds s).Nodup →
    ops.all (fun op => !isCloseOp op) = true →
    List.Chain' (fun a b => a < b) (createdIds s ops) := by
  induction ops with
  | nil => intro s _ _; simp [createdIds]
  | cons op rest ih =>
    intro s hInv hall
    rw [List.all_cons, Bool.and_eq_true] at hall
    obtain ⟨hop, hrest⟩ := hall
    have hopf : isCloseOp op = false := by simpa using hop
    cases op with
    | create t ty c d =>
      simp only [createdIds]
      refine List.chain'_cons'.mpr ⟨?_, ih _ (applyOp_nodup hInv _) hrest⟩
      intro b hb
      have hbmem : b ∈ createdIds (applyOp s (.create t ty c d)) rest := by
        rw [List.eq_cons_of_mem_head? hb]
        exact List.mem_cons_self _ _
      have h1 := createdIds_lower rest _ (applyOp_nodup hInv _) hrest b hbmem
      have h2 : getNextId s ∈ liveIds (applyOp s (.create t ty c d)) :=
        (create_step hInv).2.2
      have h3 := mem_liveIds_lt_getNextId h2
      omega
    | openI i =>
      simp only [createdIds]
      exact ih _ (applyOp_nodup hInv _) hrest
    | closeI i => simp [isCloseOp] at hopf

/-- C4.  When the identifier resolves to an issue but the solution artifact
does not exist, close returns the solution-missing error (whose message asks
the user to create solution.md) and leaves the store exactly as it was: no
file is written, moved or deleted. -/
theorem claim_C4 (s : Store) (identifier : List Char) (issue : IssueFile)
    (hfound : findIssue identifier s = .found issue)
    (hsol : s.solution = none) :
    closeIssue identifier s = (.err solutionMissingMsg, s) := by
  simp only [closeIssue, hfound, hsol]

/-- C4, witness: a store with one well-formed doing-stage issue and no
solution file. -/
theorem claim_C4_witness :
    closeIssue ('0' :: [])
        ⟨[], (("a.0.md".toList,
          formatIssueFile ⟨"2026-01-12".toList, IssueType.feat, 0⟩ ('y' :: [])) :: []),
          [], none⟩ =
      (.err solutionMissingMsg,
        ⟨[], (("a.0.md".toList,
          formatIssueFile ⟨"2026-01-12".toList, IssueType.feat, 0⟩ ('y' :: [])) :: []),
          [], none⟩) :=
  claim_C4 _ _
    ⟨'a' :: [], 0, IssueType.feat, '\n' :: 'y' :: [], "2026-01-12".toList, .doing⟩
    (by decide) rfl

/-- C5.  When the identifier resolves to an issue already in the doing
stage, open fails with the already-in-progress error and leaves the store
exactly as it was: no move, no solution artifact, no directory change. -/
theorem claim_C5 (s : Store) (identifier : List Char) (issue : IssueFile)
    (hfound : findIssue identifier s = .found issue)
    (hdoing : issue.status = .doing) :
    openIssue identifier s =
      (.err ("Issue #".toList ++ natDigits issue.number ++
        " is already in progress".toList), s) := by
  simp only [openIssue, hfound]
  rw [if_pos hdoing]

/-- C5, witness: a store with one well-formed doing-stage issue. -/
theorem claim_C5_witness :
    openIssue ('0' :: [])
        ⟨[], (("b.0.md".toList,
          formatIssueFile ⟨"2026-01-12".toList, IssueType.bug, 0⟩ ('z' :: [])) :: []),
          [], none⟩ =
      (.err ("Issue #".toList ++ natDigits 0 ++ " is already in progress".toList),
        ⟨[], (("b.0.md".toList,
          formatIssueFile ⟨"2026-01-12".toList, IssueType.bug, 0⟩ ('z' :: [])) :: []),
          [], none⟩) :=
  claim_C5 _ _
    ⟨'b' :: [], 0, IssueType.bug, '\n' :: 'z' :: [], "2026-01-12".toList, .doing⟩
    (by decide) rfl

/-- C9, counterexample.  The identifier 2x is not a non-negative integer
(validateIssueNumber rejects it), yet find delegates it to find-by-number
with the parsed prefix 2 and finds issue number 2, where a title query would
find nothing; likewise -1 parses (to a negative number) and is not treated
as a title query. -/
theorem claim_C9_counterexample :
    jsParseInt ('2' :: 'x' :: []) = some 2 ∧
    validateIssueNumber ('2' :: 'x' :: []) = none ∧
    findIssue ('2' :: 'x' :: [])
        ⟨(("Add-login.2.md".toList,
          formatIssueFile ⟨"2026-01-12".toList, IssueType.feat, 2⟩ ('y' :: [])) :: []),
          [], [], none⟩ =
      findIssueByNumber 2
        ⟨(("Add-login.2.md".toList,
          formatIssueFile ⟨"2026-01-12".toList, IssueType.feat, 2⟩ ('y' :: [])) :: []),
          [], [], none⟩ ∧
    findIssue ('2' :: 'x' :: [])
        ⟨(("Add-login.2.md".toList,
          formatIssueFile ⟨"2026-01-12".toList, IssueType.feat, 2⟩ ('y' :: [])) :: []),
          [], [], none⟩ ≠
      findIssueByTitle ('2' :: 'x' :: [])
        ⟨(("Add-login.2.md".toList,
          formatIssueFile ⟨"2026-01-12".toList, IssueType.feat, 2⟩ ('y' :: [])) :: []),
          [], [], none⟩ ∧
    jsParseInt ('-' :: '1' :: []) = some (-1) ∧
    validateIssueNumber ('-' :: '1' :: []) = none := by decide

/-- Truth of: after optional leading whitespace and one optional sign, the
identifier starts with a decimal digit — the success condition of
parseInt. -/
def leadsWithDigit (s : List Char) : Bool :=
  match s.dropWhile jsWhitespace with
  | [] => false
  | c :: r =>
    if c = '-' then r.head?.any isDigitChar
    else if c = '+' then r.head?.any isDigitChar
    else isDigitChar c

theorem parseDigitsPre_isSome (r : List Char) :
    (parseDigitsPre r).isSome = r.head?.any isDigitChar := by
  cases r with
  | nil => rfl
  | cons c cs =>
    unfold parseDigitsPre
    rw [List.takeWhile_cons]
    by_cases hc : isDigitChar c = true
    · rw [if_pos hc]
      simp [hc]
    · rw [if_neg hc]
      simp only [Bool.not_eq_true] at hc
      simp [hc]

theorem takeWhile_all_eq_self {p : Char → Bool} {l : List Char}
    (h : ∀ c ∈ l, p c = true) : l.takeWhile p = l := by
  induction l with
  | nil => rfl
  | cons c cs ih =>
    rw [List.takeWhile_cons, if_pos (h c (by simp))]
    rw [ih (fun d hd => h d (by simp [hd]))]

/-- C9, amended.  find delegates to find-by-number exactly when parseInt
succeeds on the identifier — that is, when after optional whitespace and an
optional sign it starts with a digit — and it passes parseInt's value, which
may be negative or may ignore trailing non-digits; only otherwise does it
delegate to find-by-title.  Every identifier that is a non-negative integer
string is still routed to find-by-number with its value. -/
theorem claim_C9_amended (identifier : List Char) (s : Store) :
    (∀ n, jsParseInt identifier = some n →
      findIssue identifier s = findIssueByNumber n s) ∧
    (jsParseInt identifier = none →
      findIssue identifier s = findIssueByTitle identifier s) ∧
    (jsParseInt identifier).isSome = leadsWithDigit identifier ∧
    (∀ n, validateIssueNumber identifier = some n →
      jsParseInt identifier = some (n : Int)) := by
  refine ⟨?_, ?_, ?_, ?_⟩
  · intro n h
    simp only [findIssue, h]
  · intro h
    simp only [findIssue, h]
  · unfold jsParseInt leadsWithDigit
    cases hdw : identifier.dropWhile jsWhitespace with
    | nil => rfl
    | cons c r =>
      show ((if c = '-' then (parseDigitsPre r).map (fun n => -(Int.ofNat n))
        else if c = '+' then (parseDigitsPre r).map (fun n => Int.ofNat n)
        else (parseDigitsPre (c :: r)).map (fun n => Int.ofNat n)).isSome) =
        (if c = '-' then r.head?.any isDigitChar
          else if c = '+' then r.head?.any isDigitChar
          else isDigitChar c)
      by_cases hc : c = '-'
      · rw [if_pos hc, if_pos hc]
        simp [parseDigitsPre_isSome]
      · rw [if_neg hc, if_neg hc]
        by_cases hc2 : c = '+'
        · rw [if_pos hc2, if_pos hc2]
          simp [parseDigitsPre_isSome]
        · rw [if_neg hc2, if_neg hc2]
          simp [parseDigitsPre_isSome]
  · intro n h
    unfold validateIssueNumber at h
    split at h
    · next hcond =>
      obtain ⟨hne, hall⟩ := hcond
      rw [List.all_eq_true] at hall
      simp only [Option.some.injEq] at h
      cases hid : identifier with
      | nil => exact absurd hid hne
      | cons c r =>
        subst hid
        have hcdig : isDigitChar c = true := hall c (by simp)
        have hbounds : 48 ≤ c.toNat ∧ c.toNat ≤ 57 := by
          revert hcdig
          unfold isDigitChar
          intro hd
          simpa using hd
        have hcws : jsWhitespace c = false := by
          unfold jsWhitespace
          simp only [Bool.or_eq_false_iff, Bool.and_eq_false_iff,
            decide_eq_false_iff_not]
          omega
        have hnows : (c :: r).dropWhile jsWhitespace = c :: r := by
          rw [List.dropWhile_cons, if_neg (by simp [hcws])]
        have hcne1 : ¬ c = '-' := by
          intro hcc
          subst hcc
          simp [isDigitChar] at hcdig
        have hcne2 : ¬ c = '+' := by
          intro hcc
          subst hcc
          simp [isDigitChar] at hcdig
        unfold jsParseInt
        rw [hnows]
        show (if c = '-' then (parseDigitsPre r).map (fun n => -(Int.ofNat n))
          else if c = '+' then (parseDigitsPre r).map (fun n => Int.ofNat n)
          else (parseDigitsPre (c :: r)).map (fun n => Int.ofNat n)) = some (n : Int)
        rw [if_neg hcne1, if_neg hcne2]
        unfold parseDigitsPre
        rw [takeWhile_all_eq_self hall]
        rw [if_neg (by simp)]
        rw [h]
        rfl
    · exact Option.noConfusion h

/-- C9, witness: the amended delegation law at concrete inputs — a digit
identifier is routed to find-by-number with its value, a letter identifier
to find-by-title. -/
theorem claim_C9_witness :
    findIssue ('7' :: []) emptyStore = findIssueByNumber 7 emptyStore ∧
    findIssue ('a' :: []) emptyStore = findIssueByTitle ('a' :: []) emptyStore :=
  ⟨(claim_C9_amended ('7' :: []) emptyStore).1 7 (by decide),
   (claim_C9_amended ('a' :: []) emptyStore).2.1 (by decide)⟩

set_option maxRecDepth 100000 in
/-- C1, counterexample: ids are reused after an issue is archived.  From the
empty store, create issue 0, open it, close it (archiving it), then create
again: the second create is also assigned id 0, because getNextId scans only
stash and doing, and the archived filename drops the number.  The created id
sequence 0, 0 repeats and is not strictly increasing. -/
theorem claim_C1_counterexample :
    createdIds emptyStore
      (Op.create ('a' :: []) IssueType.feat ('x' :: []) "2026-01-12".toList ::
       Op.openI ('0' :: []) :: Op.closeI ('0' :: []) ::
       Op.create ('b' :: []) IssueType.feat ('x' :: []) "2026-01-12".toList :: []) =
      0 :: 0 :: [] ∧
    ¬ (createdIds emptyStore
        (Op.create ('a' :: []) IssueType.feat ('x' :: []) "2026-01-12".toList ::
         Op.openI ('0' :: []) :: Op.closeI ('0' :: []) ::
         Op.create ('b' :: []) IssueType.feat ('x' :: []) "2026-01-12".toList :: [])).Nodup := by
  constructor
  · decide
  · decide

/-- C1, amended: along any operation sequence from the empty store the live
ids (stash and doing together) stay pairwise distinct, and as long as no
close (archive) operation occurs, the ids handed out by create are strictly
increasing and never repeat; archiving an issue, however, frees its id for
reuse. -/
theorem claim_C1_amended (ops : List Op) :
    (liveIds (runOps emptyStore ops)).Nodup ∧
    (ops.all (fun op => !isCloseOp op) = true →
      List.Chain' (fun a b => a < b) (createdIds emptyStore ops)) :=
  ⟨runOps_nodup ops emptyStore (by decide),
   fun h => createdIds_chain ops emptyStore (by decide) h⟩

set_option maxRecDepth 100000 in
/-- C1, witness: for the close-free trace create, open, create, the created
ids are strictly increasing, and the reachable state has distinct live ids. -/
theorem claim_C1_witness :
    (liveIds (runOps emptyStore
      (Op.create ('a' :: []) IssueType.feat ('x' :: []) "2026-01-12".toList ::
       Op.openI ('0' :: []) ::
       Op.create ('b' :: []) IssueType.feat ('x' :: []) "2026-01-12".toList :: []))).Nodup ∧
    List.Chain' (fun a b => a < b)
      (createdIds emptyStore
        (Op.create ('a' :: []) IssueType.feat ('x' :: []) "2026-01-12".toList ::
         Op.openI ('0' :: []) ::
         Op.create ('b' :: []) IssueType.feat ('x' :: []) "2026-01-12".toList :: [])) :=
  ⟨(claim_C1_amended
      (Op.create ('a' :: []) IssueType.feat ('x' :: []) "2026-01-12".toList ::
       Op.openI ('0' :: []) ::
       Op.create ('b' :: []) IssueType.feat ('x' :: []) "2026-01-12".toList :: [])).1,
   (claim_C1_amended
      (Op.create ('a' :: []) IssueType.feat ('x' :: []) "2026-01-12".toList ::
       Op.openI ('0' :: []) ::
       Op.create ('b' :: []) IssueType.feat ('x' :: []) "2026-01-12".toList :: [])).2
     (by decide)⟩

set_option maxRecDepth 100000 in
/-- C6, counterexample: two issues can be in the doing stage at once.  From
the empty store, create two issues and open both: openIssue checks only that
the resolved issue itself is not already doing, it never checks that the
doing directory is empty, so after open 0 and open 1 the doing directory
holds both files. -/
theorem claim_C6_counterexample :
    dirIds (runOps emptyStore
      (Op.create ('a' :: []) IssueType.feat ('x' :: []) "2026-01-12".toList ::
       Op.create ('b' :: []) IssueType.feat ('x' :: []) "2026-01-12".toList ::
       Op.openI ('0' :: []) :: Op.openI ('1' :: []) :: [])).doing = 0 :: 1 :: [] := by
  decide

/-- C6, amended: the doing directory need not be a singleton, but in every
state reachable from the empty store its issue ids are pairwise distinct and
disjoint from the stash ids, so each in-flight issue is unambiguous even
though several can be in flight. -/
theorem claim_C6_amended (ops : List Op) :
    (dirIds (runOps emptyStore ops).doing).Nodup ∧
    ∀ n ∈ dirIds (runOps emptyStore ops).doing,
      n ∉ dirIds (runOps emptyStore ops).stash := by
  have h : (dirIds (runOps emptyStore ops).stash ++
      dirIds (runOps emptyStore ops).doing).Nodup :=
    runOps_nodup ops emptyStore (by decide)
  exact ⟨List.Nodup.of_append_right h,
    fun n hn hs => (List.disjoint_of_nodup_append h) hs hn⟩

set_option maxRecDepth 100000 in
/-- C6, witness: after create then open, issue id 0 sits in the doing
directory and no longer among the stash ids. -/
theorem claim_C6_witness :
    (0 : Nat) ∈ dirIds (runOps emptyStore
      (Op.create ('a' :: []) IssueType.feat ('x' :: []) "2026-01-12".toList ::
       Op.openI ('0' :: []) :: [])).doing ∧
    (0 : Nat) ∉ dirIds (runOps emptyStore
      (Op.create ('a' :: []) IssueType.feat ('x' :: []) "2026-01-12".toList ::
       Op.openI ('0' :: []) :: [])).stash :=
  ⟨by decide,
   (claim_C6_amended
      (Op.create ('a' :: []) IssueType.feat ('x' :: []) "2026-01-12".toList ::
       Op.openI ('0' :: []) :: [])).2 0 (by decide)⟩

end IssueMake
